import Mathlib

/-!
# youtrack-attach-clean: a shallow embedding of `main.go`

The program pages through the issues of a YouTrack instance, deletes the
attachments older than three years and prints size statistics.

The embedding follows `src/main.go` function by function.  Everything the
program obtains from outside (search responses, the result of building and
sending a DELETE request, the wall clock) is supplied by a `World` of oracles,
and the requests the program sends are recorded in traces kept next to the
program variables.  The unbounded `for` loop of `main` carries a fuel argument.

Go values are represented as follows.
* `int64` is `Int`; additions and multiplications of the source wrap around
  through `wrapInt64`.
* `string` is `String`; byte-wise library functions work on its character list.
* `time.Time` is the pair of Unix seconds and nanoseconds within the second,
  the data `Time.Before` compares for times that carry no monotonic reading.
* `map[string]int64` is an association list with pairwise distinct keys.
-/

namespace YouTrackAttachClean

/-! ## Machine integers -/

/-- Two's complement reduction of an integer to the `int64` range. -/
def wrapInt64 (x : Int) : Int :=
  (x + 9223372036854775808) % 18446744073709551616 - 9223372036854775808

/-- Go `a + b` on `int64`. -/
def addInt64 (a b : Int) : Int := wrapInt64 (a + b)

/-- Go `a * b` on `int64`. -/
def mulInt64 (a b : Int) : Int := wrapInt64 (a * b)

/-- The values an `int64` can hold. -/
def InInt64 (x : Int) : Prop := -9223372036854775808 ≤ x ∧ x ≤ 9223372036854775807

instance (x : Int) : Decidable (InInt64 x) := by
  unfold InInt64; exact inferInstance

/-! ## `time.Time` -/

/-- A wall-clock instant: seconds since the Unix epoch and the nanoseconds within that second. -/
structure Time where
  sec : Int
  nsec : Int
  deriving DecidableEq, Repr

/-- Nanoseconds elapsed since the Unix epoch. -/
def Time.unixNano (t : Time) : Int := t.sec * 1000000000 + t.nsec

/-- The nanosecond field of a `time.Time` always lies in `[0, 999999999]`. -/
def Time.Normalized (t : Time) : Prop := 0 ≤ t.nsec ∧ t.nsec < 1000000000

/-- Go `t.Before(u)` for times without monotonic clock reading:
`ts < us || ts == us && t.nsec() < u.nsec()`. -/
def Time.Before (t u : Time) : Bool :=
  decide (t.sec < u.sec) || (decide (t.sec = u.sec) && decide (t.nsec < u.nsec))

/-- Go `time.Unix(sec, nsec)`: an out-of-range `nsec` is carried into `sec`
(the quotient truncates towards zero, as Go integer division does). -/
def Unix (sec nsec : Int) : Time :=
  if nsec < 0 ∨ nsec ≥ 1000000000 then
    let n := Int.tdiv nsec 1000000000
    let sec1 := addInt64 sec n
    let nsec1 := nsec - n * 1000000000
    if nsec1 < 0 then
      { sec := addInt64 sec1 (-1), nsec := nsec1 + 1000000000 }
    else
      { sec := sec1, nsec := nsec1 }
  else
    { sec := sec, nsec := nsec }

/-- Source: `type CustomTime time.Time`. -/
abbrev CustomTime := Time

/-! ## `strings` and `strconv` as used by `UnmarshalJSON` -/

/-- Go `strings.Trim(s, cutset)` for a cutset of one character: every leading and
every trailing occurrence of the character is removed. -/
def stringsTrim (s : List Char) (cut : Char) : List Char :=
  ((s.dropWhile (fun c => c == cut)).reverse.dropWhile (fun c => c == cut)).reverse

/-- The error kinds of `strconv.NumError`. -/
inductive NumError where
  | ErrSyntax
  | ErrRange
  deriving DecidableEq, Repr

/-- Go `lower(c)` of strconv: `c | ('x' - 'X')`. -/
def lower (c : Nat) : Nat := c ||| 32

/-- Digit value strconv assigns to a byte, when it assigns one. -/
def digitValue (c : Char) : Option Nat :=
  if 48 ≤ c.toNat ∧ c.toNat ≤ 57 then some (c.toNat - 48)
  else if 97 ≤ lower c.toNat ∧ lower c.toNat ≤ 122 then some (lower c.toNat - 97 + 10)
  else none

/-- Largest `uint64`. -/
def maxUint64 : Nat := 18446744073709551615

/-- The loop of `strconv.ParseUint(s, 10, 64)`; the result pairs the returned value with the
returned error. `cutoff` is `maxUint64/10 + 1` and `maxVal` is `1<<64 - 1`. -/
def parseUintLoop : List Char → Nat → Nat × Option NumError
  | [], n => (n, none)
  | c :: cs, n =>
    match digitValue c with
    | none => (0, some NumError.ErrSyntax)
    | some d =>
      if d ≥ 10 then (0, some NumError.ErrSyntax)
      else if n ≥ maxUint64 / 10 + 1 then (maxUint64, some NumError.ErrRange)
      else
        let n10 := (n * 10) % 18446744073709551616
        let n1 := (n10 + d) % 18446744073709551616
        if n1 < n10 ∨ n1 > maxUint64 then (maxUint64, some NumError.ErrRange)
        else parseUintLoop cs n1

/-- Go `strconv.ParseUint(s, 10, 64)`. -/
def ParseUint (s : List Char) : Nat × Option NumError :=
  match s with
  | [] => (0, some NumError.ErrSyntax)
  | _ :: _ => parseUintLoop s 0

/-- Second half of `strconv.ParseInt(s, 10, 64)`: the range check on the unsigned value `r`
that `ParseUint` returned and the conversion to `int64`. -/
def parseIntRange (neg : Bool) (r : Nat × Option NumError) : Int × Option NumError :=
  if r.2 = some NumError.ErrSyntax then (0, r.2)
  else if !neg && decide (r.1 ≥ 9223372036854775808) then
    (9223372036854775807, some NumError.ErrRange)
  else if neg && decide (r.1 > 9223372036854775808) then
    (-9223372036854775808, some NumError.ErrRange)
  else
    let n := wrapInt64 (r.1 : Int)
    (if neg then wrapInt64 (-n) else n, none)

/-- Go `strconv.ParseInt(s, 10, 64)`: the leading sign is picked off, the rest goes through
`ParseUint`. -/
def ParseInt (s : List Char) : Int × Option NumError :=
  match s with
  | [] => (0, some NumError.ErrSyntax)
  | c :: rest =>
    let neg : Bool := c == '-'
    let s1 := if c == '+' || c == '-' then rest else s
    parseIntRange neg (ParseUint s1)

/-- Source: `func (ct *CustomTime) UnmarshalJSON(b []byte) error`.
The receiver is passed in and the pair of the receiver after the call and the returned
error comes back. -/
def CustomTime.UnmarshalJSON (ct : CustomTime) (b : String) : CustomTime × Option NumError :=
  let s := stringsTrim b.toList '"'
  let r := ParseInt s
  match r.2 with
  | some err => (ct, some err)
  | none =>
    let unixMillis := r.1
    let t := Unix 0 (mulInt64 unixMillis 1000000)
    (t, none)

/-! ### Decimal text and literals (specification side) -/

/-- The character of a decimal digit. -/
def digitChar (d : Nat) : Char := Char.ofNat (48 + d)

/-- Decimal text of a natural number, most significant digit first, no leading zero. -/
def natText (n : Nat) : List Char :=
  if n = 0 then ['0'] else (Nat.digits 10 n).reverse.map digitChar

/-- Decimal text of an integer, as `strconv.FormatInt(m, 10)` writes it. -/
def decimalText (m : Int) : List Char :=
  if m < 0 then '-' :: natText m.natAbs else natText m.natAbs

/-- Value of a string of decimal digits. -/
def digitsValue (ds : List Char) : Nat :=
  ds.foldl (fun n c => n * 10 + (c.toNat - 48)) 0

/-- Splits a literal into its sign (`true` for `-`) and what follows the sign. -/
def literalParts (s : List Char) : Bool × List Char :=
  match s with
  | [] => (false, [])
  | c :: rest => if c = '-' then (true, rest) else if c = '+' then (false, rest) else (false, s)

/-- The integer a literal denotes. -/
def literalValue (s : List Char) : Int :=
  if (literalParts s).1 then -(digitsValue (literalParts s).2 : Int)
  else (digitsValue (literalParts s).2 : Int)

/-- A base-10 `int64` literal: an optional sign, then at least one decimal digit and nothing
else, denoting a value that an `int64` holds. -/
def isInt64Literal (s : List Char) : Bool :=
  !(literalParts s).2.isEmpty &&
  (literalParts s).2.all (fun c => decide (48 ≤ c.toNat ∧ c.toNat ≤ 57)) &&
  decide (InInt64 (literalValue s))

/-! ## Data model (`Issue`, `Project`, `Attachment`) -/

/-- Source: `type Project struct`. -/
structure Project where
  Name : String
  deriving DecidableEq, Repr

/-- Source: `type Attachment struct`. -/
structure Attachment where
  ID : String
  Size : Int
  Created : CustomTime
  Updated : CustomTime
  deriving DecidableEq, Repr

/-- Source: `type Issue struct`. -/
structure Issue where
  Id : String
  Project : Project
  Attachments : List Attachment
  deriving DecidableEq, Repr

/-! ## Configuration -/

/-- Source: `defaultYouTrackURL`. -/
def defaultYouTrackURL : String := "https://xxx.myjetbrains.com/api/issues"

/-- Source: `defaultAuthorization`. -/
def defaultAuthorization : String := "xxx"

/-- Source: `defaultProjectFilter`; empty means all projects. -/
def defaultProjectFilter : String := ""

/-- The settings `main` reads once at start: the three constants it copies into local
variables and its local `pageSize`. -/
structure Config where
  youTrackURL : String
  authorization : String
  projectFilter : String
  pageSize : Nat
  deriving DecidableEq, Repr

/-- The settings as the source fixes them (`pageSize := 16000`). -/
def defaultConfig : Config :=
  { youTrackURL := defaultYouTrackURL
    authorization := defaultAuthorization
    projectFilter := defaultProjectFilter
    pageSize := 16000 }

/-! ## `strings` as used by `main` -/

/-- Go `strings.HasPrefix` on character lists. -/
def startsWith : List Char → List Char → Bool
  | _, [] => true
  | [], _ :: _ => false
  | c :: cs, d :: ds => c == d && startsWith cs ds

/-- Go `strings.Contains(s, substr)`. -/
def stringsContains (s substr : List Char) : Bool :=
  match s with
  | [] => substr.isEmpty
  | c :: cs => startsWith (c :: cs) substr || stringsContains cs substr

/-- Go `strings.Split(s, sep)` for a separator of one character. -/
def stringsSplit (s : List Char) (sep : Char) : List (List Char) :=
  match s with
  | [] => [[]]
  | c :: cs =>
    if c == sep then [] :: stringsSplit cs sep
    else
      match stringsSplit cs sep with
      | [] => [[c]]
      | w :: ws => (c :: w) :: ws

/-- Go `strings.Join(elems, sep)` for a separator of one character. -/
def stringsJoin (elems : List (List Char)) (sep : Char) : List Char :=
  match elems with
  | [] => []
  | [w] => w
  | w :: ws => w ++ sep :: stringsJoin ws sep

/-! ## The outside world and the program state -/

/-- What `client.Do` gives back for a DELETE request. -/
inductive DoResult where
  | transportError
  | status (code : Nat)
  deriving DecidableEq, Repr

/-- The error values `deleteAttachment` returns. -/
inductive DeleteError where
  | newRequest (url : String)
  | transport (url : String)
  | statusCode (code : Nat) (url : String)
  deriving DecidableEq, Repr

/-- The lines `main` writes through `log.Printf` around a delete call. -/
inductive LogLine where
  | errorDeleting (err : DeleteError)
  | deletedOld (attachmentID issueID : String)
  deriving DecidableEq, Repr

/-- Everything the program obtains from outside.
* `search k url`: the decoded body of the response to the `k`-th search request
  (counted from 0), sent to `url`; `none` stands for every outcome on which `main` calls
  `log.Fatalf` (request not built, transport error, status other than 200, body not
  readable, body not a JSON array of issues).
* `newRequest url`: the target of the request that `http.NewRequest("DELETE", url, nil)`
  builds from the string `url`, as `client.Do` puts it on the wire (scheme, host and request
  URI); `none` when `http.NewRequest` returns an error. The library parses the string, so
  the target need not be the string itself.
* `clientDo k target`: the outcome of `client.Do` for the `k`-th DELETE request sent.
* `threeyearsago k`: the value of `time.Now().AddDate(-3, 0, 0)` at the `k`-th
  classification of an attachment.
* `rangeOrder m`: the order in which `range` visits the entries of the map `m`. -/
structure World where
  search : Nat → String → Option (List Issue)
  newRequest : String → Option String
  clientDo : Nat → String → DoResult
  threeyearsago : Nat → Time
  rangeOrder : List (String × Int) → List (String × Int)

/-- The variables of `main` that change in the loop, with the traces of what was sent and
logged: `requests` holds the URLs of the search requests, `deletes` the targets of the
DELETE requests handed to `client.Do`, `classified` counts the attachments classified so
far. -/
structure State where
  totalSize : Int
  totalOldsize : Int
  projectSizes : List (String × Int)
  requests : List String
  deletes : List String
  classified : Nat
  log : List LogLine
  deriving DecidableEq, Repr

/-- The state before the loop: `totalSize := int64(0)`, `totalOldsize := int64(0)`,
`projectSizes := make(map[string]int64)`. -/
def State.init : State :=
  { totalSize := 0, totalOldsize := 0, projectSizes := [],
    requests := [], deletes := [], classified := 0, log := [] }

/-! ## Go maps -/

/-- Go `m[k]` on `map[string]int64`: the stored value, or zero when `k` is absent. -/
def mapIndex (m : List (String × Int)) (k : String) : Int :=
  match m.lookup k with
  | some v => v
  | none => 0

/-- Go `m[k] = v`: overwrite the entry of `k`, or add one. -/
def mapAssign (m : List (String × Int)) (k : String) (v : Int) : List (String × Int) :=
  match m with
  | [] => [(k, v)]
  | (k1, v1) :: rest =>
    if k1 = k then (k, v) :: rest else (k1, v1) :: mapAssign rest k v

/-! ## `deleteAttachment` -/

/-- The URL of `deleteAttachment`: `fmt.Sprintf("%s/%s/attachments/%s", ...)`. -/
def deleteURL (cfg : Config) (issueID attachmentID : String) : String :=
  cfg.youTrackURL ++ "/" ++ issueID ++ "/attachments/" ++ attachmentID

/-- Source: `func deleteAttachment(issueID, attachmentID, authorization string, client)`.
Returns the state with the sent request recorded, and the returned error. -/
def deleteAttachment (cfg : Config) (W : World) (st : State) (issueID attachmentID : String) :
    State × Option DeleteError :=
  let url := deleteURL cfg issueID attachmentID
  match W.newRequest url with
  | none => (st, some (DeleteError.newRequest url))
  | some target =>
    let st1 := { st with deletes := st.deletes ++ [target] }
    match W.clientDo st.deletes.length target with
    | DoResult.transportError => (st1, some (DeleteError.transport url))
    | DoResult.status code =>
      if code ≠ 200 then (st1, some (DeleteError.statusCode code url))
      else (st1, none)

/-! ## The body of the loop over attachments -/

/-- Source, line 154: `isOld := Created.Before(threeyearsago) || Updated.Before(threeyearsago)`. -/
def isOld (threeyearsago : Time) (attachment : Attachment) : Bool :=
  attachment.Created.Before threeyearsago || attachment.Updated.Before threeyearsago

/-- Source, lines 159-163: the log line written after the delete call. -/
def logDelete (st : State) (err : Option DeleteError) (attachmentID issueID : String) : State :=
  match err with
  | some e => { st with log := st.log ++ [LogLine.errorDeleting e] }
  | none => { st with log := st.log ++ [LogLine.deletedOld attachmentID issueID] }

/-- Source, lines 165-166: `totalOldsize += attachment.Size` and
`projectSizes[projectName] += attachment.Size`. -/
def account (st : State) (projectName : String) (size : Int) : State :=
  { st with
    totalOldsize := addInt64 st.totalOldsize size,
    projectSizes := mapAssign st.projectSizes projectName
      (addInt64 (mapIndex st.projectSizes projectName) size) }

/-- Source, lines 151-168: one pass of `for _, attachment := range issue.Attachments`. -/
def processAttachment (cfg : Config) (W : World) (issue : Issue) (st : State)
    (attachment : Attachment) : State :=
  let st1 := { st with totalSize := addInt64 st.totalSize attachment.Size,
                       classified := st.classified + 1 }
  let threeyearsago := W.threeyearsago st.classified
  if isOld threeyearsago attachment then
    let r := deleteAttachment cfg W st1 issue.Id attachment.ID
    account (logDelete r.1 r.2 attachment.ID issue.Id) issue.Project.Name attachment.Size
  else st1

/-- Source, line 146: the condition under which an issue is skipped. -/
def skipped (cfg : Config) (issue : Issue) : Bool :=
  cfg.projectFilter != "" && !stringsContains cfg.projectFilter.toList issue.Project.Name.toList

/-- Source, lines 143-170: one pass of `for _, issue := range issues`. -/
def processIssue (cfg : Config) (W : World) (st : State) (issue : Issue) : State :=
  if skipped cfg issue then st
  else issue.Attachments.foldl (processAttachment cfg W issue) st

/-- Source, lines 143-170: the whole loop over one page. -/
def processPage (cfg : Config) (W : World) (st : State) (issues : List Issue) : State :=
  issues.foldl (processIssue cfg W) st

/-! ## The fetch loop -/

/-- Source, lines 97-101. -/
def projectFilterQuery (cfg : Config) : String :=
  if cfg.projectFilter != "" then
    "project:+" ++ String.mk (stringsJoin (stringsSplit cfg.projectFilter.toList ',') ',')
  else ""

/-- Source, line 106: the URL of a search request. -/
def searchURL (cfg : Config) (after : String) : String :=
  cfg.youTrackURL ++ "?fields=idReadable,project(name),attachments(id,size,created,updated)&$top="
    ++ toString cfg.pageSize ++ after ++ "&query=" ++ projectFilterQuery cfg ++ "+has:+attachments"

/-- Source, line 175: `fmt.Sprintf("&$skip=%d", pageSize)`. -/
def skipParam (n : Nat) : String := "&$skip=" ++ toString n

/-- How a run of the loop ends: `log.Fatalf` exits the process, the `break` leaves the loop,
or the fuel of the model is used up. -/
inductive Outcome where
  | outOfFuel
  | fatal (st : State)
  | done (st : State)
  deriving DecidableEq, Repr

/-- Source, lines 105-178: the `for` loop of `main`. Each unit of fuel pays for one pass. -/
def fetchLoop (cfg : Config) (W : World) : Nat → String → State → Outcome
  | 0, _, _ => Outcome.outOfFuel
  | fuel + 1, after, st =>
    let url := searchURL cfg after
    let st1 := { st with requests := st.requests ++ [url] }
    match W.search st.requests.length url with
    | none => Outcome.fatal st1
    | some issues =>
      let st2 := processPage cfg W st1 issues
      if issues.length < cfg.pageSize then Outcome.done st2
      else fetchLoop cfg W fuel (skipParam cfg.pageSize) st2

/-! ## The report -/

/-- The anonymous struct of `sortedProjects`. -/
structure ProjectSize where
  Name : String
  Size : Int
  deriving DecidableEq, Repr

/-- Inner loop of Go's `insertionSortLessFunc`: the new element moves towards the front
while it is less than its predecessor. The sorted part is given last element first. -/
def sinkLess {α : Type} (less : α → α → Bool) (x : α) : List α → List α
  | [] => [x]
  | y :: ys => if less x y then y :: sinkLess less x ys else x :: y :: ys

/-- Go `sort.Slice(data, less)`, as the insertion sort the `sort` package runs on short
slices. The package promises no more than a reordering of the slice that `less` accepts
as sorted; it is not stable. -/
def sortSlice {α : Type} (less : α → α → Bool) (data : List α) : List α :=
  (data.foldl (fun sortedRev x => sinkLess less x sortedRev) []).reverse

/-- Source, lines 185-197: the entries in the order `range` yields them, sorted with
`sortedProjects[i].Size > sortedProjects[j].Size` as `less`. -/
def sortedProjects (ranged : List (String × Int)) : List ProjectSize :=
  sortSlice (fun a b => decide (a.Size > b.Size))
    (ranged.map (fun e => { Name := e.1, Size := e.2 }))

/-- What `main` prints: the two totals (before their conversion to megabytes) and the
ranked projects. -/
structure Report where
  totalSize : Int
  totalOldsize : Int
  projects : List ProjectSize
  deriving DecidableEq, Repr

/-- Source, lines 181-201. -/
def report (W : World) (st : State) : Report :=
  { totalSize := st.totalSize
    totalOldsize := st.totalOldsize
    projects := sortedProjects (W.rangeOrder st.projectSizes) }

/-- Source: `func main()`. `none` when the process exits through `log.Fatalf` or the fuel
runs out; otherwise the final state and the report. -/
def main (cfg : Config) (W : World) (fuel : Nat) : Option (State × Report) :=
  match fetchLoop cfg W fuel "" State.init with
  | Outcome.done st => some (st, report W st)
  | _ => none

/-! ## Vocabulary of the claims -/

/-- The issues of a list that the check of line 146 lets through. -/
def processed (cfg : Config) (issues : List Issue) : List Issue :=
  issues.filter (fun i => !skipped cfg i)

/-- The attachments of a list of issues in the order the two nested loops visit them,
each with its issue. -/
def attachmentsOf : List Issue → List (Issue × Attachment)
  | [] => []
  | i :: rest => i.Attachments.map (fun a => (i, a)) ++ attachmentsOf rest

/-- The attachments classified old among `ps`, when the first of them is the `k`-th
attachment the run classifies. -/
def oldFrom (W : World) : Nat → List (Issue × Attachment) → List (Issue × Attachment)
  | _, [] => []
  | k, p :: ps =>
    if isOld (W.threeyearsago k) p.2 then p :: oldFrom W (k + 1) ps else oldFrom W (k + 1) ps

/-- The sizes of a list of attachments. -/
def sizes (ps : List (Issue × Attachment)) : List Int := ps.map (fun p => p.2.Size)

/-- Adding up `int64` values the way the program does, one `+=` after the other. -/
def sumInt64 (a : Int) (ps : List (Issue × Attachment)) : Int :=
  ps.foldl (fun acc p => addInt64 acc p.2.Size) a

/-- The map that `projectSizes[projectName] += attachment.Size` builds from `m` when it
runs for each attachment of `olds` in turn. -/
def tally (m : List (String × Int)) (olds : List (Issue × Attachment)) : List (String × Int) :=
  olds.foldl (fun acc p => mapAssign acc p.1.Project.Name
    (addInt64 (mapIndex acc p.1.Project.Name) p.2.Size)) m

/-- The DELETE requests that reach `client.Do` for the old attachments `olds`: for each
attachment whose request `http.NewRequest` builds, the target of that request. -/
def deletesFor (cfg : Config) (W : World) (olds : List (Issue × Attachment)) : List String :=
  olds.filterMap (fun p => W.newRequest (deleteURL cfg p.1.Id p.2.ID))

/-- The attachments of the project called `name`. -/
def ofProject (name : String) (ps : List (Issue × Attachment)) : List (Issue × Attachment) :=
  ps.filter (fun p => p.1.Project.Name == name)

/-- The URL of the `j`-th search request (counted from 0) as the loop builds it: `after` is
empty in the first pass and `&$skip=<pageSize>` in every later one. -/
def requestURL (cfg : Config) (j : Nat) : String :=
  searchURL cfg (if j = 0 then "" else skipParam cfg.pageSize)

/-- The issues in the response to the `j`-th search request. -/
def page (cfg : Config) (W : World) (j : Nat) : List Issue :=
  match W.search j (requestURL cfg j) with
  | some issues => issues
  | none => []

/-- The responses number `k`, `k + 1`, ..., `k + n`. -/
def pagesFrom (cfg : Config) (W : World) : Nat → Nat → List (List Issue)
  | k, 0 => [page cfg W k]
  | k, n + 1 => page cfg W k :: pagesFrom cfg W (k + 1) n

/-- All issues of the responses number `0` to `n`, in order. -/
def fetched (cfg : Config) (W : World) (n : Nat) : List Issue :=
  (pagesFrom cfg W 0 n).flatten

/-- Response number `n` is the first short page: the responses `0` to `n` are all
successful, those before `n` hold at least `pageSize` issues and response `n` holds fewer. -/
def FirstShortAt (cfg : Config) (W : World) (n : Nat) : Prop :=
  (∀ j, j ≤ n → (W.search j (requestURL cfg j)).isSome = true) ∧
  (∀ j, j < n → cfg.pageSize ≤ (page cfg W j).length) ∧
  (page cfg W n).length < cfg.pageSize

instance (cfg : Config) (W : World) (n : Nat) : Decidable (FirstShortAt cfg W n) := by
  unfold FirstShortAt; exact inferInstance

/-- The attachments the run classifies when response number `n` is its last: those of the
processed issues of all fetched pages, in traversal order. -/
def classifiedAttachments (cfg : Config) (W : World) (n : Nat) : List (Issue × Attachment) :=
  attachmentsOf (processed cfg (fetched cfg W n))

/-- The attachments the run classifies old, in traversal order. -/
def oldAttachments (cfg : Config) (W : World) (n : Nat) : List (Issue × Attachment) :=
  oldFrom W 0 (classifiedAttachments cfg W n)

/-- What the two nested loops do to the counters when they run over the attachments `ps`
starting in state `st` and ending in state `st1`. -/
def Accounts (cfg : Config) (W : World) (st : State) (ps : List (Issue × Attachment))
    (st1 : State) : Prop :=
  st1.totalSize = sumInt64 st.totalSize ps ∧
  st1.totalOldsize = sumInt64 st.totalOldsize (oldFrom W st.classified ps) ∧
  st1.projectSizes = tally st.projectSizes (oldFrom W st.classified ps) ∧
  st1.deletes = st.deletes ++ deletesFor cfg W (oldFrom W st.classified ps) ∧
  st1.classified = st.classified + ps.length ∧
  st1.log.length = st.log.length + (oldFrom W st.classified ps).length

/-! ## Sample data -/

/-- A cutoff in November 2023 (seconds since the epoch). -/
def sampleCutoff : Time := { sec := 1700000000, nsec := 0 }

/-- An attachment created in 2020 and updated in 2024. -/
def sampleAttachment : Attachment :=
  { ID := "8-1", Size := 100,
    Created := { sec := 1600000000, nsec := 0 },
    Updated := { sec := 1710000000, nsec := 500 } }

/-- An issue of project `A` that carries `sampleAttachment`. -/
def sampleIssue : Issue :=
  { Id := "A-1", Project := { Name := "A" }, Attachments := [sampleAttachment] }

/-- A world whose tracker holds `sampleIssue` alone, where every DELETE is answered
with status 200 and the cutoff never moves. -/
def sampleWorld : World :=
  { search := fun _ _ => some [sampleIssue]
    newRequest := fun url => some url
    clientDo := fun _ _ => DoResult.status 200
    threeyearsago := fun _ => sampleCutoff
    rangeOrder := fun m => m }

/-- The settings of the source with a page size of 2, to keep sample pages short. -/
def smallConfig : Config := { defaultConfig with pageSize := 2 }

/-- An issue of project `B` without attachments. -/
def issueB : Issue := { Id := "B-7", Project := { Name := "B" }, Attachments := [] }

/-- A tracker that answers the first two requests with full pages of two issues and every
later one with a page of one issue: pages of sizes `[pageSize, pageSize, 1]` for
`smallConfig`. -/
def threePagesWorld : World :=
  { sampleWorld with
    search := fun k _ => if k < 2 then some [sampleIssue, issueB] else some [sampleIssue] }

/-- A tracker that answers the first two requests with full pages of 16000 issues and every
later one with an empty page. -/
def fullPagesWorld : World :=
  { sampleWorld with
    search := fun k _ => some (if k < 2 then List.replicate 16000 issueB else []) }

/-- A second old attachment, of 250 bytes. -/
def attachment250 : Attachment :=
  { ID := "8-2", Size := 250,
    Created := { sec := 1500000000, nsec := 0 },
    Updated := { sec := 1500000000, nsec := 0 } }

/-- A second issue of project `A`, carrying `attachment250`. -/
def issueA2 : Issue :=
  { Id := "A-2", Project := { Name := "A" }, Attachments := [attachment250] }

/-- A tracker with two issues of project `A`, each with one old attachment, of 100 and of
250 bytes. -/
def twoOldWorld : World :=
  { sampleWorld with search := fun _ _ => some [sampleIssue, issueA2] }

/-- The tracker of `twoOldWorld` when every DELETE is answered with status 404. -/
def refusingWorld : World :=
  { twoOldWorld with clientDo := fun _ _ => DoResult.status 404 }

/-- An issue whose identifier holds a line feed. -/
def lineFeedIssue : Issue :=
  { Id := "A\n1", Project := { Name := "A" }, Attachments := [sampleAttachment] }

/-- An issue whose identifier holds a number sign. -/
def numberSignIssue : Issue :=
  { Id := "A#1", Project := { Name := "A" }, Attachments := [sampleAttachment] }

/-- A tracker that returns `lineFeedIssue` and `numberSignIssue`, in a world where
`http.NewRequest` treats their URLs as Go's library does: a URL that holds an ASCII control
character is refused, and what starts at `#` is a fragment, which is not part of the
request sent. -/
def strictWorld : World :=
  { sampleWorld with
    search := fun _ _ => some [lineFeedIssue, numberSignIssue]
    newRequest := fun url =>
      if url.toList.any (fun c => c.toNat < 32 || c.toNat == 127) then none
      else some (String.mk (url.toList.takeWhile (fun c => c != '#'))) }

/-- An old attachment whose size is the largest `int64`. -/
def hugeAttachment : Attachment := { sampleAttachment with ID := "8-3", Size := 9223372036854775807 }

/-- An old attachment of one mebibyte. -/
def mebibyteAttachment : Attachment := { sampleAttachment with ID := "8-4", Size := 1048576 }

/-- An issue of project `A` with the two attachments above. -/
def hugeIssue : Issue :=
  { Id := "A-3", Project := { Name := "A" },
    Attachments := [hugeAttachment, mebibyteAttachment] }

/-- A tracker that returns `hugeIssue`. -/
def hugeWorld : World :=
  { sampleWorld with search := fun _ _ => some [hugeIssue] }

/-- An issue of a project called `XYZ`, with one old attachment of 100 bytes. -/
def issueXYZ : Issue :=
  { Id := "XYZ-1", Project := { Name := "XYZ" }, Attachments := [sampleAttachment] }

/-- A tracker that returns `issueXYZ`. -/
def worldXYZ : World :=
  { sampleWorld with search := fun _ _ => some [issueXYZ] }

/-- The settings of the source with the project filter `ABC,DEF`. -/
def filterConfig : Config := { defaultConfig with projectFilter := "ABC,DEF" }

/-- An issue of a project called `BC`, with one old attachment. -/
def issueBC : Issue :=
  { Id := "BC-1", Project := { Name := "BC" }, Attachments := [sampleAttachment] }

/-- A tracker that returns `issueBC`. -/
def worldBC : World :=
  { sampleWorld with search := fun _ _ => some [issueBC] }

/-- A world in which `range` visits a map from its last entry to its first. -/
def reversingWorld : World :=
  { sampleWorld with rangeOrder := fun m => m.reverse }

/-- A state whose map holds `A: 300`, `B: 300`, `C: 100`. -/
def rankedState : State :=
  { State.init with projectSizes := [("A", 300), ("B", 300), ("C", 100)] }

/-! ## Machine integers and time: basic facts -/

theorem wrapInt64_of_inInt64 {x : Int} (h : InInt64 x) : wrapInt64 x = x := by
  unfold InInt64 at h
  unfold wrapInt64
  omega

theorem inInt64_wrapInt64 (x : Int) : InInt64 (wrapInt64 x) := by
  unfold InInt64 wrapInt64
  omega

theorem wrapInt64_add_wrapInt64 (a b : Int) : wrapInt64 (wrapInt64 a + b) = wrapInt64 (a + b) := by
  unfold wrapInt64
  omega

theorem before_iff_unixNano_lt {t u : Time} (ht : t.Normalized) (hu : u.Normalized) :
    t.Before u = true ↔ t.unixNano < u.unixNano := by
  unfold Time.Normalized at ht hu
  unfold Time.Before Time.unixNano
  simp only [Bool.or_eq_true, Bool.and_eq_true, decide_eq_true_eq]
  omega

theorem unix_zero_spec {x : Int} (hx : InInt64 x) :
    (Unix 0 x).Normalized ∧ (Unix 0 x).unixNano = x := by
  unfold InInt64 at hx
  have key : ∀ q : Int, q = Int.tdiv x 1000000000 →
      -9223372037 ≤ q ∧ q ≤ 9223372037 ∧ -1000000000 < x - q * 1000000000 ∧
        x - q * 1000000000 < 1000000000 := by
    intro q hq
    rcases le_or_lt 0 x with h | h
    · rw [Int.tdiv_eq_ediv h (by decide)] at hq
      omega
    · have e : Int.tdiv x 1000000000 = -((-x) / 1000000000) := by
        have h1 := Int.neg_tdiv (-x) 1000000000
        rw [neg_neg] at h1
        rw [h1, Int.tdiv_eq_ediv (by omega) (by decide)]
      rw [e] at hq
      omega
  obtain ⟨k1, k2, k3, k4⟩ := key _ rfl
  unfold Unix Time.Normalized Time.unixNano addInt64
  by_cases hr : x < 0 ∨ x ≥ 1000000000
  · rw [if_pos hr]
    simp only [zero_add]
    have hw : wrapInt64 (Int.tdiv x 1000000000) = Int.tdiv x 1000000000 :=
      wrapInt64_of_inInt64 (by unfold InInt64; omega)
    rw [hw]
    by_cases hn : x - Int.tdiv x 1000000000 * 1000000000 < 0
    · rw [if_pos hn]
      have hw2 : wrapInt64 (Int.tdiv x 1000000000 + -1) = Int.tdiv x 1000000000 + -1 :=
        wrapInt64_of_inInt64 (by unfold InInt64; omega)
      rw [hw2]
      simp only
      omega
    · rw [if_neg hn]
      simp only
      omega
  · rw [if_neg hr]
    simp only
    omega

/-! ## `strconv.ParseInt` against the literals -/

theorem digitValue_of_decimal {c : Char} (h : 48 ≤ c.toNat ∧ c.toNat ≤ 57) :
    digitValue c = some (c.toNat - 48) := by
  simp [digitValue, h]

theorem decimal_of_digitValue {c : Char} {d : Nat} (h : digitValue c = some d) (hd : d < 10) :
    (48 ≤ c.toNat ∧ c.toNat ≤ 57) ∧ d = c.toNat - 48 := by
  unfold digitValue at h
  split_ifs at h with h1 h2
  · simp only [Option.some.injEq] at h
    exact ⟨h1, h.symm⟩
  · simp only [Option.some.injEq] at h
    omega

theorem le_foldl_digits (cs : List Char) (n : Nat) :
    n ≤ cs.foldl (fun n c => n * 10 + (c.toNat - 48)) n := by
  induction cs generalizing n with
  | nil => simp
  | cons c cs ih =>
    simp only [List.foldl_cons]
    exact le_trans (by omega) (ih _)

theorem parseUintLoop_ok (cs : List Char) (n : Nat)
    (hcs : ∀ c ∈ cs, 48 ≤ c.toNat ∧ c.toNat ≤ 57)
    (hlt : cs.foldl (fun n c => n * 10 + (c.toNat - 48)) n < 18446744073709551616) :
    parseUintLoop cs n = (cs.foldl (fun n c => n * 10 + (c.toNat - 48)) n, none) := by
  induction cs generalizing n with
  | nil => simp [parseUintLoop]
  | cons c cs ih =>
    have hc := hcs c (List.mem_cons_self _ _)
    simp only [List.foldl_cons] at hlt ⊢
    have hle := le_foldl_digits cs (n * 10 + (c.toNat - 48))
    have h1 : ¬ (c.toNat - 48 ≥ 10) := by omega
    have h2 : ¬ (n ≥ maxUint64 / 10 + 1) := by unfold maxUint64; omega
    have e1 : n * 10 % 18446744073709551616 = n * 10 := Nat.mod_eq_of_lt (by omega)
    have e2 : (n * 10 + (c.toNat - 48)) % 18446744073709551616 = n * 10 + (c.toNat - 48) :=
      Nat.mod_eq_of_lt (by omega)
    have h3 : ¬ (n * 10 + (c.toNat - 48) < n * 10 ∨ n * 10 + (c.toNat - 48) > maxUint64) := by
      unfold maxUint64; omega
    simp only [parseUintLoop, digitValue_of_decimal hc, if_neg h1, if_neg h2, e1, e2, if_neg h3]
    exact ih _ (fun x hx => hcs x (List.mem_cons_of_mem _ hx)) hlt

theorem parseUintLoop_sound (cs : List Char) (n u : Nat) (e : Option NumError)
    (h : parseUintLoop cs n = (u, e)) :
    (e = none → (∀ c ∈ cs, 48 ≤ c.toNat ∧ c.toNat ≤ 57) ∧
      u = cs.foldl (fun n c => n * 10 + (c.toNat - 48)) n) ∧
    (e = some NumError.ErrRange → u = maxUint64) := by
  induction cs generalizing n with
  | nil =>
    simp only [parseUintLoop, Prod.mk.injEq] at h
    obtain ⟨h1, h2⟩ := h
    subst h1 h2
    simp
  | cons c cs ih =>
    simp only [parseUintLoop] at h
    cases hd : digitValue c with
    | none =>
      rw [hd] at h
      simp only [Prod.mk.injEq] at h
      obtain ⟨_, h2⟩ := h
      subst h2
      simp
    | some d =>
      rw [hd] at h
      simp only at h
      split_ifs at h with h1 h2 h3
      · simp only [Prod.mk.injEq] at h
        obtain ⟨_, h2⟩ := h
        subst h2
        simp
      · simp only [Prod.mk.injEq] at h
        obtain ⟨h1, h2⟩ := h
        subst h1 h2
        simp
      · simp only [Prod.mk.injEq] at h
        obtain ⟨h1, h2⟩ := h
        subst h1 h2
        simp
      · have hdec := decimal_of_digitValue hd (by omega)
        have hn : n < 1844674407370955162 := by unfold maxUint64 at h2; omega
        have e1 : n * 10 % 18446744073709551616 = n * 10 := Nat.mod_eq_of_lt (by omega)
        rw [e1] at h h3
        have e2 : (n * 10 + d) % 18446744073709551616 = n * 10 + d := by
          by_contra hne
          apply h3
          left
          omega
        rw [e2] at h
        obtain ⟨i1, i2⟩ := ih _ h
        refine ⟨fun he => ?_, i2⟩
        obtain ⟨j1, j2⟩ := i1 he
        refine ⟨?_, ?_⟩
        · intro x hx
          rcases List.mem_cons.1 hx with rfl | hx
          · exact hdec.1
          · exact j1 x hx
        · simp only [List.foldl_cons]
          rw [← hdec.2]
          exact j2

theorem parseUint_ok (cs : List Char) (hne : cs ≠ [])
    (hcs : ∀ c ∈ cs, 48 ≤ c.toNat ∧ c.toNat ≤ 57) (hlt : digitsValue cs < 18446744073709551616) :
    ParseUint cs = (digitsValue cs, none) := by
  cases cs with
  | nil => exact absurd rfl hne
  | cons c cs => exact parseUintLoop_ok (c :: cs) 0 hcs hlt

theorem parseUint_sound (cs : List Char) (u : Nat) (e : Option NumError)
    (h : ParseUint cs = (u, e)) :
    (e = none → cs ≠ [] ∧ (∀ c ∈ cs, 48 ≤ c.toNat ∧ c.toNat ≤ 57) ∧ u = digitsValue cs) ∧
    (e = some NumError.ErrRange → u = maxUint64) := by
  cases cs with
  | nil =>
    simp only [ParseUint, Prod.mk.injEq] at h
    obtain ⟨_, h2⟩ := h
    subst h2
    simp
  | cons c cs =>
    have hs := parseUintLoop_sound (c :: cs) 0 u e h
    exact ⟨fun he => ⟨List.cons_ne_nil _ _, hs.1 he⟩, hs.2⟩

theorem parseIntRange_ok (neg : Bool) (u : Nat)
    (h : InInt64 (if neg then -(u : Int) else (u : Int))) :
    parseIntRange neg (u, none) = (if neg then -(u : Int) else (u : Int), none) := by
  unfold InInt64 at h
  cases neg
  · simp only [Bool.false_eq_true, if_false] at h
    have h1 : ¬ (u ≥ 9223372036854775808) := by omega
    have hw : wrapInt64 (u : Int) = u := wrapInt64_of_inInt64 (by unfold InInt64; omega)
    simp [parseIntRange, h1, hw]
  · simp only [if_true] at h
    have h1 : ¬ (u > 9223372036854775808) := by omega
    have hw : wrapInt64 (-wrapInt64 (u : Int)) = -(u : Int) := by
      unfold wrapInt64
      omega
    simp [parseIntRange, h1, hw]

theorem parseIntRange_sound (neg : Bool) (u : Nat) (e : Option NumError) (v : Int)
    (hr : e = some NumError.ErrRange → u = maxUint64)
    (h : parseIntRange neg (u, e) = (v, none)) :
    e = none ∧ InInt64 (if neg then -(u : Int) else (u : Int)) := by
  have fin : ¬ e = some NumError.ErrSyntax →
      ¬ (!neg && decide (u ≥ 9223372036854775808)) = true →
      ¬ (neg && decide (u > 9223372036854775808)) = true →
      e = none ∧ InInt64 (if neg then -(u : Int) else (u : Int)) := by
    intro h1 h2 h3
    have he : e = none := by
      cases e with
      | none => rfl
      | some x =>
        cases x with
        | ErrSyntax => exact absurd rfl h1
        | ErrRange =>
          have hu := hr rfl
          unfold maxUint64 at hu
          subst hu
          cases neg <;> simp at h2 h3
    refine ⟨he, ?_⟩
    unfold InInt64
    cases neg
    · simp only [Bool.not_false, Bool.true_and, decide_eq_true_eq] at h2
      simp only [Bool.false_eq_true, if_false]
      omega
    · simp only [Bool.true_and, decide_eq_true_eq] at h3
      simp only [if_true]
      omega
  unfold parseIntRange at h
  simp only at h
  split_ifs at h with h1 h2 h3 h4
  · simp only [Prod.mk.injEq] at h
    rw [h1] at h
    exact absurd h.2 (by simp)
  · simp at h
  · simp at h
  · exact fin h1 h2 h3
  · exact fin h1 h2 h3

theorem parseInt_eq (s : List Char) :
    ParseInt s = parseIntRange (literalParts s).1 (ParseUint (literalParts s).2) := by
  cases s with
  | nil => simp [ParseInt, literalParts, ParseUint, parseIntRange]
  | cons c rest =>
    by_cases h1 : c = '-'
    · subst h1
      simp [ParseInt, literalParts]
    · by_cases h2 : c = '+'
      · subst h2
        simp [ParseInt, literalParts]
      · have e : (c == '-') = false := by simp [h1]
        simp [ParseInt, literalParts, h1, h2, e]

theorem parseInt_of_literal (s : List Char) (h : isInt64Literal s = true) :
    ParseInt s = (literalValue s, none) := by
  unfold isInt64Literal at h
  simp only [Bool.and_eq_true, Bool.not_eq_true', List.isEmpty_eq_false, List.all_eq_true,
    decide_eq_true_eq] at h
  obtain ⟨⟨hne, hdec⟩, hin⟩ := h
  have hlt : digitsValue (literalParts s).2 < 18446744073709551616 := by
    unfold InInt64 literalValue at hin
    split_ifs at hin <;> omega
  rw [parseInt_eq, parseUint_ok _ hne hdec hlt]
  exact parseIntRange_ok _ _ hin

theorem literal_of_parseInt (s : List Char) (v : Int) (h : ParseInt s = (v, none)) :
    isInt64Literal s = true := by
  rw [parseInt_eq] at h
  obtain ⟨hs1, hs2⟩ := parseUint_sound (literalParts s).2 (ParseUint (literalParts s).2).1
    (ParseUint (literalParts s).2).2 rfl
  obtain ⟨he, hin⟩ := parseIntRange_sound _ _ _ v hs2 h
  obtain ⟨hne, hdec, hu⟩ := hs1 he
  unfold isInt64Literal
  simp only [Bool.and_eq_true, Bool.not_eq_true', List.isEmpty_eq_false, List.all_eq_true,
    decide_eq_true_eq]
  refine ⟨⟨hne, hdec⟩, ?_⟩
  unfold literalValue
  rw [← hu]
  exact hin

theorem digitChar_toNat {d : Nat} (hd : d < 10) : (digitChar d).toNat = 48 + d := by
  interval_cases d <;> rfl

theorem natText_spec (k : Nat) :
    natText k ≠ [] ∧ (∀ c ∈ natText k, 48 ≤ c.toNat ∧ c.toNat ≤ 57) ∧
      digitsValue (natText k) = k := by
  unfold natText
  by_cases hk : k = 0
  · subst hk
    simp only [if_true]
    refine ⟨by simp, ?_, by rfl⟩
    intro c hc
    simp only [List.mem_singleton] at hc
    subst hc
    decide
  · rw [if_neg hk]
    have hd : ∀ d ∈ (Nat.digits 10 k).reverse, d < 10 := by
      intro d hd
      exact Nat.digits_lt_base (by decide) (List.mem_reverse.1 hd)
    refine ⟨?_, ?_, ?_⟩
    · simp [Nat.digits_ne_nil_iff_ne_zero, hk]
    · intro c hc
      obtain ⟨d, hd1, rfl⟩ := List.mem_map.1 hc
      rw [digitChar_toNat (hd d hd1)]
      have := hd d hd1
      omega
    · unfold digitsValue
      rw [List.foldl_map]
      have e : List.foldl (fun n d => n * 10 + ((digitChar d).toNat - 48)) 0
            (Nat.digits 10 k).reverse
          = List.foldl (fun n d => n * 10 + d) 0 (Nat.digits 10 k).reverse := by
        apply List.foldl_ext
        intro a b hb
        rw [digitChar_toNat (hd b hb)]
        omega
      rw [e, List.foldl_reverse]
      conv_rhs => rw [← Nat.ofDigits_digits 10 k]
      rw [Nat.ofDigits_eq_foldr]
      congr 1
      funext x y
      simp only [Nat.cast_id]
      omega

theorem literalParts_of_decimal (c : Char) (rest : List Char)
    (hc : 48 ≤ c.toNat ∧ c.toNat ≤ 57) : literalParts (c :: rest) = (false, c :: rest) := by
  have h1 : c ≠ '-' := by
    intro h
    subst h
    exact absurd hc (by decide)
  have h2 : c ≠ '+' := by
    intro h
    subst h
    exact absurd hc (by decide)
  simp [literalParts, h1, h2]

theorem decimalText_spec (m : Int) (hm : InInt64 m) :
    isInt64Literal (decimalText m) = true ∧ literalValue (decimalText m) = m ∧
      decimalText m ≠ [] ∧ ∀ c ∈ decimalText m, c ≠ '"' := by
  obtain ⟨hne, hdec, hval⟩ := natText_spec m.natAbs
  have hq : ∀ c ∈ natText m.natAbs, c ≠ '"' := by
    intro c hc h
    subst h
    exact absurd (hdec _ hc) (by decide)
  by_cases hneg : m < 0
  · have e : decimalText m = '-' :: natText m.natAbs := by simp [decimalText, hneg]
    have hp : literalParts ('-' :: natText m.natAbs) = (true, natText m.natAbs) := by
      simp [literalParts]
    have hv : literalValue (decimalText m) = m := by
      rw [e]
      unfold literalValue
      rw [hp]
      simp only [if_true, hval]
      omega
    refine ⟨?_, hv, by rw [e]; simp, ?_⟩
    · unfold isInt64Literal
      rw [hv]
      rw [e, hp]
      simp only [Bool.and_eq_true, Bool.not_eq_true', List.isEmpty_eq_false, List.all_eq_true,
        decide_eq_true_eq]
      exact ⟨⟨hne, hdec⟩, hm⟩
    · rw [e]
      intro c hc
      rcases List.mem_cons.1 hc with rfl | hc
      · decide
      · exact hq c hc
  · have e : decimalText m = natText m.natAbs := by simp [decimalText, hneg]
    have hp : literalParts (natText m.natAbs) = (false, natText m.natAbs) := by
      cases hnt : natText m.natAbs with
      | nil => exact absurd hnt hne
      | cons c rest =>
        apply literalParts_of_decimal
        apply hdec
        rw [hnt]
        exact List.mem_cons_self _ _
    have hv : literalValue (decimalText m) = m := by
      rw [e]
      unfold literalValue
      rw [hp]
      simp only [Bool.false_eq_true, if_false, hval]
      omega
    refine ⟨?_, hv, by rw [e]; exact hne, by rw [e]; exact hq⟩
    unfold isInt64Literal
    rw [hv]
    rw [e, hp]
    simp only [Bool.and_eq_true, Bool.not_eq_true', List.isEmpty_eq_false, List.all_eq_true,
      decide_eq_true_eq]
    exact ⟨⟨hne, hdec⟩, hm⟩

theorem dropWhile_of_forall_ne (s : List Char) (q : Char) (h : ∀ c ∈ s, c ≠ q) :
    s.dropWhile (fun c => c == q) = s := by
  cases s with
  | nil => rfl
  | cons c t =>
    have hc : (c == q) = false := by simpa using h c (List.mem_cons_self _ _)
    simp [List.dropWhile, hc]

theorem stringsTrim_of_forall_ne (s : List Char) (q : Char) (h : ∀ c ∈ s, c ≠ q) :
    stringsTrim s q = s := by
  unfold stringsTrim
  rw [dropWhile_of_forall_ne s q h,
    dropWhile_of_forall_ne s.reverse q (fun c hc => h c (List.mem_reverse.1 hc)),
    List.reverse_reverse]

theorem stringsTrim_quoted (s : List Char) (q : Char) (hne : s ≠ []) (h : ∀ c ∈ s, c ≠ q) :
    stringsTrim (q :: s ++ [q]) q = s := by
  unfold stringsTrim
  have e1 : (q :: s ++ [q]).dropWhile (fun c => c == q) = s ++ [q] := by
    cases s with
    | nil => exact absurd rfl hne
    | cons c t =>
      have hc : (c == q) = false := by simpa using h c (List.mem_cons_self _ _)
      simp [List.dropWhile, hc]
  rw [e1]
  have e2 : (s ++ [q]).reverse = q :: s.reverse := by simp
  rw [e2]
  have e3 : (q :: s.reverse).dropWhile (fun c => c == q)
      = s.reverse.dropWhile (fun c => c == q) := by
    simp [List.dropWhile]
  rw [e3, dropWhile_of_forall_ne s.reverse q (fun c hc => h c (List.mem_reverse.1 hc)),
    List.reverse_reverse]

theorem unmarshalJSON_of_literal (ct : CustomTime) (b : String)
    (h : isInt64Literal (stringsTrim b.toList '"') = true) :
    CustomTime.UnmarshalJSON ct b
      = (Unix 0 (mulInt64 (literalValue (stringsTrim b.toList '"')) 1000000), none) := by
  unfold CustomTime.UnmarshalJSON
  simp only [parseInt_of_literal _ h]

theorem unmarshalJSON_of_not_literal (ct : CustomTime) (b : String)
    (h : isInt64Literal (stringsTrim b.toList '"') = false) :
    ∃ err, CustomTime.UnmarshalJSON ct b = (ct, some err) := by
  unfold CustomTime.UnmarshalJSON
  cases hp : ParseInt (stringsTrim b.toList '"') with
  | mk v e =>
    cases e with
    | none =>
      have := literal_of_parseInt _ v hp
      rw [h] at this
      exact absurd this (by simp)
    | some err => exact ⟨err, by simp only [hp]⟩

/-! ## One attachment: what each step changes -/

theorem deleteAttachment_fst (cfg : Config) (W : World) (st : State) (i a : String) :
    (deleteAttachment cfg W st i a).1
      = { st with deletes := st.deletes ++ (W.newRequest (deleteURL cfg i a)).toList } := by
  unfold deleteAttachment
  simp only
  cases h : W.newRequest (deleteURL cfg i a) with
  | none => simp [Option.toList]
  | some target =>
    simp only [Option.toList]
    cases W.clientDo st.deletes.length target with
    | transportError => rfl
    | status code => by_cases hc : code ≠ 200 <;> simp [hc]

theorem logDelete_eq (st : State) (err : Option DeleteError) (a i : String) :
    ∃ line, logDelete st err a i = { st with log := st.log ++ [line] } := by
  cases err with
  | none => exact ⟨_, rfl⟩
  | some e => exact ⟨_, rfl⟩

theorem processAttachment_eq (cfg : Config) (W : World) (issue : Issue) (st : State)
    (a : Attachment) :
    ∃ line, processAttachment cfg W issue st a =
      if isOld (W.threeyearsago st.classified) a then
        { totalSize := addInt64 st.totalSize a.Size
          totalOldsize := addInt64 st.totalOldsize a.Size
          projectSizes := mapAssign st.projectSizes issue.Project.Name
            (addInt64 (mapIndex st.projectSizes issue.Project.Name) a.Size)
          requests := st.requests
          deletes := st.deletes ++ (W.newRequest (deleteURL cfg issue.Id a.ID)).toList
          classified := st.classified + 1
          log := st.log ++ [line] }
      else { st with totalSize := addInt64 st.totalSize a.Size,
                     classified := st.classified + 1 } := by
  unfold processAttachment
  simp only
  obtain ⟨line, hl⟩ := logDelete_eq
    (deleteAttachment cfg W { st with totalSize := addInt64 st.totalSize a.Size,
                                      classified := st.classified + 1 } issue.Id a.ID).1
    (deleteAttachment cfg W { st with totalSize := addInt64 st.totalSize a.Size,
                                      classified := st.classified + 1 } issue.Id a.ID).2
    a.ID issue.Id
  refine ⟨line, ?_⟩
  rw [hl, deleteAttachment_fst]
  rfl


/-! ## The loops over a page -/

theorem sumInt64_append (a : Int) (ps qs : List (Issue × Attachment)) :
    sumInt64 a (ps ++ qs) = sumInt64 (sumInt64 a ps) qs := by
  unfold sumInt64
  rw [List.foldl_append]

theorem tally_append (m : List (String × Int)) (ps qs : List (Issue × Attachment)) :
    tally m (ps ++ qs) = tally (tally m ps) qs := by
  unfold tally
  rw [List.foldl_append]

theorem deletesFor_append (cfg : Config) (W : World) (ps qs : List (Issue × Attachment)) :
    deletesFor cfg W (ps ++ qs) = deletesFor cfg W ps ++ deletesFor cfg W qs := by
  unfold deletesFor
  rw [List.filterMap_append]

theorem oldFrom_append (W : World) (k : Nat) (ps qs : List (Issue × Attachment)) :
    oldFrom W k (ps ++ qs) = oldFrom W k ps ++ oldFrom W (k + ps.length) qs := by
  induction ps generalizing k with
  | nil => simp [oldFrom]
  | cons p ps ih =>
    have e : k + 1 + ps.length = k + (p :: ps).length := by
      simp only [List.length_cons]
      omega
    have e0 : oldFrom W k (p :: ps ++ qs) =
        if isOld (W.threeyearsago k) p.2 then p :: oldFrom W (k + 1) (ps ++ qs)
        else oldFrom W (k + 1) (ps ++ qs) := rfl
    have e1 : oldFrom W k (p :: ps) =
        if isOld (W.threeyearsago k) p.2 then p :: oldFrom W (k + 1) ps
        else oldFrom W (k + 1) ps := rfl
    rw [e0, e1, ih (k + 1), e]
    split_ifs <;> simp

theorem attachmentsOf_append (xs ys : List Issue) :
    attachmentsOf (xs ++ ys) = attachmentsOf xs ++ attachmentsOf ys := by
  induction xs with
  | nil => simp [attachmentsOf]
  | cons i xs ih => simp [attachmentsOf, ih]

theorem processed_append (cfg : Config) (xs ys : List Issue) :
    processed cfg (xs ++ ys) = processed cfg xs ++ processed cfg ys := by
  unfold processed
  rw [List.filter_append]

theorem accounts_same (cfg : Config) (W : World) (st st1 : State)
    (h1 : st1.totalSize = st.totalSize) (h2 : st1.totalOldsize = st.totalOldsize)
    (h3 : st1.projectSizes = st.projectSizes) (h4 : st1.deletes = st.deletes)
    (h5 : st1.classified = st.classified) (h6 : st1.log = st.log) :
    Accounts cfg W st [] st1 := by
  unfold Accounts
  simp [sumInt64, oldFrom, tally, deletesFor, h1, h2, h3, h4, h5, h6]

theorem accounts_trans (cfg : Config) (W : World) (st st1 st2 : State)
    (ps qs : List (Issue × Attachment))
    (h1 : Accounts cfg W st ps st1) (h2 : Accounts cfg W st1 qs st2) :
    Accounts cfg W st (ps ++ qs) st2 := by
  unfold Accounts at *
  obtain ⟨a1, a2, a3, a4, a5, a6⟩ := h1
  obtain ⟨b1, b2, b3, b4, b5, b6⟩ := h2
  rw [a5] at b2 b3 b4 b6
  refine ⟨?_, ?_, ?_, ?_, ?_, ?_⟩
  · rw [b1, a1, sumInt64_append]
  · rw [b2, a2, oldFrom_append, sumInt64_append]
  · rw [b3, a3, oldFrom_append, tally_append]
  · rw [b4, a4, oldFrom_append, deletesFor_append, List.append_assoc]
  · rw [b5, a5, List.length_append]
    omega
  · rw [b6, a6, oldFrom_append, List.length_append]
    omega

theorem accounts_processAttachment (cfg : Config) (W : World) (issue : Issue) (st : State)
    (a : Attachment) :
    Accounts cfg W st [(issue, a)] (processAttachment cfg W issue st a) ∧
      (processAttachment cfg W issue st a).requests = st.requests := by
  obtain ⟨line, hl⟩ := processAttachment_eq cfg W issue st a
  rw [hl]
  unfold Accounts
  cases hold : isOld (W.threeyearsago st.classified) a
  · simp [sumInt64, oldFrom, tally, deletesFor, hold]
  · cases hr : W.newRequest (deleteURL cfg issue.Id a.ID) with
    | none => simp [sumInt64, oldFrom, tally, deletesFor, hold, hr]
    | some target => simp [sumInt64, oldFrom, tally, deletesFor, hold, hr]

theorem accounts_attachments (cfg : Config) (W : World) (issue : Issue)
    (as : List Attachment) (st : State) :
    Accounts cfg W st (as.map (fun a => (issue, a)))
        (as.foldl (processAttachment cfg W issue) st) ∧
      (as.foldl (processAttachment cfg W issue) st).requests = st.requests := by
  induction as generalizing st with
  | nil => exact ⟨accounts_same cfg W st st rfl rfl rfl rfl rfl rfl, rfl⟩
  | cons a as ih =>
    obtain ⟨h1, r1⟩ := accounts_processAttachment cfg W issue st a
    obtain ⟨h2, r2⟩ := ih (processAttachment cfg W issue st a)
    simp only [List.map_cons, List.foldl_cons]
    exact ⟨accounts_trans cfg W _ _ _ [(issue, a)] _ h1 h2, r2.trans r1⟩

theorem accounts_processPage (cfg : Config) (W : World) (issues : List Issue) (st : State) :
    Accounts cfg W st (attachmentsOf (processed cfg issues)) (processPage cfg W st issues) ∧
      (processPage cfg W st issues).requests = st.requests := by
  induction issues generalizing st with
  | nil => exact ⟨accounts_same cfg W st st rfl rfl rfl rfl rfl rfl, rfl⟩
  | cons i rest ih =>
    unfold processPage at ih ⊢
    simp only [List.foldl_cons]
    by_cases hs : skipped cfg i = true
    · have e : processed cfg (i :: rest) = processed cfg rest := by
        simp [processed, hs]
      rw [e]
      have e2 : processIssue cfg W st i = st := by simp [processIssue, hs]
      rw [e2]
      exact ih st
    · have e : processed cfg (i :: rest) = i :: processed cfg rest := by
        simp [processed, hs]
      rw [e]
      have e2 : processIssue cfg W st i = i.Attachments.foldl (processAttachment cfg W i) st := by
        simp [processIssue, hs]
      rw [e2]
      obtain ⟨h1, r1⟩ := accounts_attachments cfg W i i.Attachments st
      obtain ⟨h2, r2⟩ := ih (i.Attachments.foldl (processAttachment cfg W i) st)
      simp only [attachmentsOf]
      exact ⟨accounts_trans cfg W _ _ _ _ _ h1 h2, r2.trans r1⟩


/-! ## The fetch loop -/

theorem page_of_search (cfg : Config) (W : World) (j : Nat) (issues : List Issue)
    (h : W.search j (requestURL cfg j) = some issues) : page cfg W j = issues := by
  unfold page
  rw [h]

theorem fetchLoop_from (cfg : Config) (W : World) (n : Nat) :
    ∀ (k fuel : Nat) (after : String) (st : State),
      st.requests.length = k → searchURL cfg after = requestURL cfg k →
      (∀ j, j ≤ n → (W.search (k + j) (requestURL cfg (k + j))).isSome = true) →
      (∀ j, j < n → cfg.pageSize ≤ (page cfg W (k + j)).length) →
      (page cfg W (k + n)).length < cfg.pageSize →
      n < fuel →
      ∃ st1, fetchLoop cfg W fuel after st = Outcome.done st1 ∧
        st1.requests = st.requests ++ (List.range' k (n + 1)).map (requestURL cfg) ∧
        Accounts cfg W st (attachmentsOf (processed cfg (pagesFrom cfg W k n).flatten)) st1 := by
  induction n with
  | zero =>
    intro k fuel after st hk hafter hsome _ hshort hfuel
    obtain ⟨f, rfl⟩ : ∃ f, fuel = f + 1 := ⟨fuel - 1, by omega⟩
    obtain ⟨issues, hi⟩ := Option.isSome_iff_exists.1 (hsome 0 (le_refl 0))
    simp only [Nat.add_zero] at hi hshort
    have hp := page_of_search cfg W k issues hi
    rw [hp] at hshort
    obtain ⟨hacc, hreq⟩ := accounts_processPage cfg W issues
      { st with requests := st.requests ++ [searchURL cfg after] }
    refine ⟨processPage cfg W { st with requests := st.requests ++ [searchURL cfg after] } issues,
      ?_, ?_, ?_⟩
    · simp only [fetchLoop, hk, hafter, hi, hshort, if_true]
    · rw [hreq, hafter]
      simp
    · simp only [pagesFrom, hp, List.flatten_cons, List.flatten_nil, List.append_nil]
      exact hacc
  | succ n ih =>
    intro k fuel after st hk hafter hsome hfull hshort hfuel
    obtain ⟨f, rfl⟩ : ∃ f, fuel = f + 1 := ⟨fuel - 1, by omega⟩
    obtain ⟨issues, hi⟩ := Option.isSome_iff_exists.1 (hsome 0 (Nat.zero_le _))
    simp only [Nat.add_zero] at hi
    have hp := page_of_search cfg W k issues hi
    have hlong : ¬ issues.length < cfg.pageSize := by
      have := hfull 0 (Nat.succ_pos n)
      simp only [Nat.add_zero, hp] at this
      omega
    obtain ⟨hacc, hreq⟩ := accounts_processPage cfg W issues
      { st with requests := st.requests ++ [searchURL cfg after] }
    have hnext : searchURL cfg (skipParam cfg.pageSize) = requestURL cfg (k + 1) := by
      simp [requestURL]
    obtain ⟨st1, h1, h2, h3⟩ := ih (k + 1) f (skipParam cfg.pageSize)
      (processPage cfg W { st with requests := st.requests ++ [searchURL cfg after] } issues)
      (by rw [hreq]; simp [hk]) hnext
      (fun j hj => by
        have := hsome (j + 1) (by omega)
        rwa [show k + (j + 1) = k + 1 + j by omega] at this)
      (fun j hj => by
        have := hfull (j + 1) (by omega)
        rwa [show k + (j + 1) = k + 1 + j by omega] at this)
      (by rwa [show k + (n + 1) = k + 1 + n by omega] at hshort)
      (by omega)
    refine ⟨st1, ?_, ?_, ?_⟩
    · simp only [fetchLoop, hk, hafter, hi, hlong, if_false]
      rw [← hafter]
      exact h1
    · rw [h2, hreq, hafter]
      have e : List.range' k (n + 1 + 1) = k :: List.range' (k + 1) (n + 1) := by
        simp [List.range'_succ]
      rw [e]
      simp
    · simp only [pagesFrom, hp, List.flatten_cons, processed_append, attachmentsOf_append]
      exact accounts_trans cfg W st _ st1 _ _ hacc h3

/-- The run of the loop when response number `n` is the first short page: with more than
`n` units of fuel the loop leaves through its `break`, having sent the requests number `0`
to `n`, and the counters account for the attachments of all processed issues. -/
theorem fetchLoop_done (cfg : Config) (W : World) (n fuel : Nat) (h : FirstShortAt cfg W n)
    (hfuel : n < fuel) :
    ∃ st, fetchLoop cfg W fuel "" State.init = Outcome.done st ∧
      st.requests = (List.range' 0 (n + 1)).map (requestURL cfg) ∧
      Accounts cfg W State.init (attachmentsOf (processed cfg (fetched cfg W n))) st := by
  obtain ⟨h1, h2, h3⟩ := h
  obtain ⟨st, r1, r2, r3⟩ := fetchLoop_from cfg W n 0 fuel "" State.init rfl
    (by simp [requestURL])
    (fun j hj => by rw [Nat.zero_add]; exact h1 j hj)
    (fun j hj => by rw [Nat.zero_add]; exact h2 j hj)
    (by rw [Nat.zero_add]; exact h3) hfuel
  refine ⟨st, r1, ?_, r3⟩
  rw [r2]
  simp [State.init]


/-! ## The per-project map -/

theorem lookup_cons_eq (name k1 : String) (v1 : Int) (rest : List (String × Int)) :
    List.lookup name ((k1, v1) :: rest) = if name = k1 then some v1 else rest.lookup name := by
  by_cases h : name = k1
  · have hb : (name == k1) = true := by simp [h]
    simp [List.lookup, hb, h]
  · have hb : (name == k1) = false := by simp [h]
    simp [List.lookup, hb, h]

theorem lookup_mapAssign (m : List (String × Int)) (k : String) (v : Int) (name : String) :
    (mapAssign m k v).lookup name = if name = k then some v else m.lookup name := by
  induction m with
  | nil =>
    unfold mapAssign
    rw [lookup_cons_eq]
  | cons e rest ih =>
    obtain ⟨k1, v1⟩ := e
    unfold mapAssign
    by_cases h1 : k1 = k
    · subst h1
      rw [if_pos rfl, lookup_cons_eq, lookup_cons_eq]
      by_cases h : name = k1 <;> simp [h]
    · rw [if_neg h1, lookup_cons_eq, lookup_cons_eq, ih]
      by_cases h : name = k
      · subst h
        have h2 : ¬ name = k1 := fun e => h1 e.symm
        simp [h2]
      · simp [h]

theorem mapIndex_mapAssign (m : List (String × Int)) (k : String) (v : Int) (name : String) :
    mapIndex (mapAssign m k v) name = if name = k then v else mapIndex m name := by
  unfold mapIndex
  rw [lookup_mapAssign]
  by_cases h : name = k <;> simp [h]

theorem keys_mapAssign (m : List (String × Int)) (k : String) (v : Int) :
    (mapAssign m k v).map Prod.fst
      = if k ∈ m.map Prod.fst then m.map Prod.fst else m.map Prod.fst ++ [k] := by
  induction m with
  | nil => simp [mapAssign]
  | cons e rest ih =>
    obtain ⟨k1, v1⟩ := e
    by_cases h1 : k1 = k
    · subst h1
      simp [mapAssign]
    · have h2 : ¬ k = k1 := fun e => h1 e.symm
      simp only [mapAssign, if_neg h1, List.map_cons, ih, List.mem_cons, h2, false_or]
      split_ifs <;> simp

theorem nodup_keys_mapAssign (m : List (String × Int)) (k : String) (v : Int)
    (h : (m.map Prod.fst).Nodup) : ((mapAssign m k v).map Prod.fst).Nodup := by
  rw [keys_mapAssign]
  split_ifs with hk
  · exact h
  · exact List.Nodup.append h (List.nodup_singleton k) (by simpa using hk)

theorem nodup_keys_tally (olds : List (Issue × Attachment)) (m : List (String × Int))
    (h : (m.map Prod.fst).Nodup) : ((tally m olds).map Prod.fst).Nodup := by
  induction olds generalizing m with
  | nil => exact h
  | cons p olds ih =>
    unfold tally
    simp only [List.foldl_cons]
    exact ih _ (nodup_keys_mapAssign m _ _ h)

theorem lookup_tally (olds : List (Issue × Attachment)) (m : List (String × Int))
    (name : String) :
    (tally m olds).lookup name =
      if ofProject name olds = [] then m.lookup name
      else some (sumInt64 (mapIndex m name) (ofProject name olds)) := by
  induction olds generalizing m with
  | nil => simp [tally, ofProject]
  | cons p olds ih =>
    have e : tally m (p :: olds) = tally (mapAssign m p.1.Project.Name
        (addInt64 (mapIndex m p.1.Project.Name) p.2.Size)) olds := rfl
    rw [e, ih]
    by_cases hp : p.1.Project.Name = name
    · have e2 : ofProject name (p :: olds) = p :: ofProject name olds := by
        simp [ofProject, hp]
      rw [e2, lookup_mapAssign, mapIndex_mapAssign]
      simp only [hp, if_true]
      by_cases hnil : ofProject name olds = []
      · simp [hnil, sumInt64]
      · simp [hnil, sumInt64]
    · have e2 : ofProject name (p :: olds) = ofProject name olds := by
        simp [ofProject, hp]
      have hp2 : ¬ name = p.1.Project.Name := fun e => hp e.symm
      rw [e2, lookup_mapAssign, mapIndex_mapAssign]
      simp only [hp2, if_false]

/-! ## `sort.Slice` -/

theorem sinkLess_perm {α : Type} (less : α → α → Bool) (x : α) (l : List α) :
    (sinkLess less x l).Perm (x :: l) := by
  induction l with
  | nil => exact List.Perm.refl _
  | cons y ys ih =>
    unfold sinkLess
    split_ifs
    · exact (List.Perm.cons y ih).trans (List.Perm.swap x y ys)
    · exact List.Perm.refl _

theorem foldl_sinkLess_perm {α : Type} (less : α → α → Bool) (data acc : List α) :
    (data.foldl (fun sortedRev x => sinkLess less x sortedRev) acc).Perm (data ++ acc) := by
  induction data generalizing acc with
  | nil => exact List.Perm.refl _
  | cons x rest ih =>
    simp only [List.foldl_cons, List.cons_append]
    exact (ih _).trans ((List.Perm.append_left rest (sinkLess_perm less x acc)).trans
      List.perm_middle)

theorem sortSlice_perm {α : Type} (less : α → α → Bool) (data : List α) :
    (sortSlice less data).Perm data := by
  unfold sortSlice
  have h := foldl_sinkLess_perm less data []
  rw [List.append_nil] at h
  exact (List.reverse_perm _).trans h

theorem sinkLess_ascending (x : ProjectSize) (l : List ProjectSize)
    (h : l.Pairwise (fun a b => a.Size ≤ b.Size)) :
    (sinkLess (fun a b => decide (a.Size > b.Size)) x l).Pairwise
      (fun a b => a.Size ≤ b.Size) := by
  induction l with
  | nil => simp [sinkLess]
  | cons y ys ih =>
    obtain ⟨hy, hys⟩ := List.pairwise_cons.1 h
    unfold sinkLess
    by_cases hlt : x.Size > y.Size
    · simp only [hlt, decide_True, if_true]
      refine List.pairwise_cons.2 ⟨?_, ih hys⟩
      intro z hz
      rcases List.mem_cons.1 ((sinkLess_perm _ x ys).mem_iff.1 hz) with rfl | hz
      · omega
      · exact hy z hz
    · simp only [hlt, decide_False, Bool.false_eq_true, if_false]
      refine List.pairwise_cons.2 ⟨?_, h⟩
      intro z hz
      rcases List.mem_cons.1 hz with rfl | hz
      · omega
      · have := hy z hz
        omega

theorem foldl_sinkLess_ascending (data acc : List ProjectSize)
    (h : acc.Pairwise (fun a b => a.Size ≤ b.Size)) :
    (data.foldl (fun sortedRev x => sinkLess (fun a b => decide (a.Size > b.Size)) x sortedRev)
      acc).Pairwise (fun a b => a.Size ≤ b.Size) := by
  induction data generalizing acc with
  | nil => exact h
  | cons x rest ih =>
    simp only [List.foldl_cons]
    exact ih _ (sinkLess_ascending x acc h)

theorem sortSlice_descending (data : List ProjectSize) :
    (sortSlice (fun a b => decide (a.Size > b.Size)) data).Pairwise
      (fun a b => a.Size ≥ b.Size) := by
  unfold sortSlice
  rw [List.pairwise_reverse]
  exact foldl_sinkLess_ascending data [] List.Pairwise.nil

/-! ## Claims about `UnmarshalJSON` and the age test -/

/-- C1: the age test of `main` marks an attachment old exactly when its creation instant or
its update instant lies strictly before the cutoff `time.Now().AddDate(-3, 0, 0)` read at
that classification; a log line for a delete call is written exactly in that case; the
verdict does not change when the two timestamps are exchanged. -/
theorem isOld_iff_before_cutoff (cfg : Config) (W : World) (issue : Issue) (st : State)
    (a : Attachment) (hc : (W.threeyearsago st.classified).Normalized)
    (hcreated : a.Created.Normalized) (hupdated : a.Updated.Normalized) :
    (isOld (W.threeyearsago st.classified) a = true ↔
      a.Created.unixNano < (W.threeyearsago st.classified).unixNano ∨
      a.Updated.unixNano < (W.threeyearsago st.classified).unixNano) ∧
    ((processAttachment cfg W issue st a).log.length = st.log.length + 1 ↔
      a.Created.unixNano < (W.threeyearsago st.classified).unixNano ∨
      a.Updated.unixNano < (W.threeyearsago st.classified).unixNano) ∧
    isOld (W.threeyearsago st.classified)
        { a with Created := a.Updated, Updated := a.Created }
      = isOld (W.threeyearsago st.classified) a := by
  have hiff : isOld (W.threeyearsago st.classified) a = true ↔
      a.Created.unixNano < (W.threeyearsago st.classified).unixNano ∨
      a.Updated.unixNano < (W.threeyearsago st.classified).unixNano := by
    unfold isOld
    rw [Bool.or_eq_true, before_iff_unixNano_lt hcreated hc, before_iff_unixNano_lt hupdated hc]
  refine ⟨hiff, ?_, ?_⟩
  · rw [← hiff]
    obtain ⟨line, hl⟩ := processAttachment_eq cfg W issue st a
    rw [hl]
    cases hold : isOld (W.threeyearsago st.classified) a <;> simp
  · unfold isOld
    exact Bool.or_comm _ _

/-- Witness of C1: the sample attachment, created before the cutoff and updated after it. -/
theorem isOld_iff_before_cutoff_witness :
    (isOld (sampleWorld.threeyearsago State.init.classified) sampleAttachment = true ↔
      sampleAttachment.Created.unixNano
          < (sampleWorld.threeyearsago State.init.classified).unixNano ∨
      sampleAttachment.Updated.unixNano
          < (sampleWorld.threeyearsago State.init.classified).unixNano) ∧
    ((processAttachment defaultConfig sampleWorld sampleIssue State.init
          sampleAttachment).log.length = State.init.log.length + 1 ↔
      sampleAttachment.Created.unixNano
          < (sampleWorld.threeyearsago State.init.classified).unixNano ∨
      sampleAttachment.Updated.unixNano
          < (sampleWorld.threeyearsago State.init.classified).unixNano) ∧
    isOld (sampleWorld.threeyearsago State.init.classified)
        { sampleAttachment with Created := sampleAttachment.Updated,
                                Updated := sampleAttachment.Created }
      = isOld (sampleWorld.threeyearsago State.init.classified) sampleAttachment :=
  isOld_iff_before_cutoff defaultConfig sampleWorld sampleIssue State.init sampleAttachment
    ⟨by decide, by decide⟩ ⟨by decide, by decide⟩ ⟨by decide, by decide⟩

/-- C10, as amended: for every `int64` value `m`, `UnmarshalJSON` accepts the decimal text of
`m`, bare or in double quotes, and stores a normalized instant whose distance from the Unix
epoch is `m * 1000000` nanoseconds reduced to `int64`; that is the instant `m` milliseconds
after the epoch exactly when `-9223372036854 ≤ m ≤ 9223372036854`. On a text that is not a
base-10 `int64` literal once the surrounding double quotes are removed it returns an error
and leaves the receiver as it was. -/
theorem unmarshalJSON_millis (ct : CustomTime) (m : Int) (hm : InInt64 m) (b : String)
    (hb : isInt64Literal (stringsTrim b.toList '"') = false) :
    (∃ t : Time, t.Normalized ∧ t.unixNano = wrapInt64 (m * 1000000) ∧
      (t.unixNano = m * 1000000 ↔ -9223372036854 ≤ m ∧ m ≤ 9223372036854) ∧
      CustomTime.UnmarshalJSON ct (String.mk (decimalText m)) = (t, none) ∧
      CustomTime.UnmarshalJSON ct (String.mk ('"' :: decimalText m ++ ['"'])) = (t, none)) ∧
    ∃ err, CustomTime.UnmarshalJSON ct b = (ct, some err) := by
  refine ⟨?_, unmarshalJSON_of_not_literal ct b hb⟩
  obtain ⟨hlit, hval, hne, hq⟩ := decimalText_spec m hm
  obtain ⟨hn, hu⟩ := unix_zero_spec (inInt64_wrapInt64 (m * 1000000))
  have t1 : stringsTrim (String.mk (decimalText m)).toList '"' = decimalText m :=
    stringsTrim_of_forall_ne _ _ hq
  have t2 : stringsTrim (String.mk ('"' :: decimalText m ++ ['"'])).toList '"'
      = decimalText m := stringsTrim_quoted _ _ hne hq
  refine ⟨Unix 0 (mulInt64 m 1000000), hn, hu, ?_, ?_, ?_⟩
  · unfold mulInt64
    rw [hu]
    unfold InInt64 at hm
    unfold wrapInt64
    omega
  · rw [unmarshalJSON_of_literal ct _ (by rw [t1]; exact hlit), t1, hval]
  · rw [unmarshalJSON_of_literal ct _ (by rw [t2]; exact hlit), t2, hval]

/-- Witness of C10: the millisecond stamp `1700000000123` and the malformed text `12a`. -/
theorem unmarshalJSON_millis_witness :
    (∃ t : Time, t.Normalized ∧ t.unixNano = wrapInt64 (1700000000123 * 1000000) ∧
      (t.unixNano = 1700000000123 * 1000000 ↔
        -9223372036854 ≤ (1700000000123 : Int) ∧ (1700000000123 : Int) ≤ 9223372036854) ∧
      CustomTime.UnmarshalJSON sampleCutoff (String.mk (decimalText 1700000000123)) = (t, none) ∧
      CustomTime.UnmarshalJSON sampleCutoff
        (String.mk ('"' :: decimalText 1700000000123 ++ ['"'])) = (t, none)) ∧
    ∃ err, CustomTime.UnmarshalJSON sampleCutoff "12a" = (sampleCutoff, some err) :=
  unmarshalJSON_millis sampleCutoff 1700000000123 (by decide) "12a" (by decide)

/-- Counterexample to C10 as stated: `9223372036855` is an `int64` and the text is its
decimal form, yet the stored instant lies in the year 1677, not `9223372036855` milliseconds
after the epoch, because `unixMillis*int64(time.Millisecond)` wraps around. -/
theorem unmarshalJSON_overflow :
    InInt64 9223372036855 ∧
    String.mk (decimalText 9223372036855) = "9223372036855" ∧
    CustomTime.UnmarshalJSON sampleCutoff "9223372036855"
      = ({ sec := -9223372037, nsec := 145448384 }, none) ∧
    Time.unixNano { sec := -9223372037, nsec := 145448384 } ≠ 9223372036855 * 1000000 := by
  refine ⟨by decide, ?_, by decide, by decide⟩
  simp [decimalText, natText, digitChar]

/-! ## Claims about the fetch loop -/

theorem sumInt64_eq (a : Int) (ha : InInt64 a) (ps : List (Issue × Attachment)) :
    sumInt64 a ps = wrapInt64 (a + (sizes ps).sum) := by
  unfold sumInt64 sizes
  induction ps generalizing a with
  | nil => simp [wrapInt64_of_inInt64 ha]
  | cons p ps ih =>
    simp only [List.foldl_cons, List.map_cons, List.sum_cons]
    rw [ih (addInt64 a p.2.Size) (inInt64_wrapInt64 _)]
    unfold addInt64
    rw [wrapInt64_add_wrapInt64, add_assoc]

theorem processed_of_no_filter (cfg : Config) (h : cfg.projectFilter = defaultProjectFilter)
    (issues : List Issue) : processed cfg issues = issues := by
  unfold processed
  apply List.filter_eq_self.2
  intro i _
  simp [skipped, h, defaultProjectFilter]

/-- C2, the code at the failing input: the tracker answers two requests with full pages of
16000 issues and the third with an empty page. The loop sends three requests; the second and
the third both carry `$skip=16000`, while 32000 issues had been returned before the third. -/
theorem skip_stays_at_pageSize :
    FirstShortAt defaultConfig fullPagesWorld 2 ∧
    (page defaultConfig fullPagesWorld 0).length + (page defaultConfig fullPagesWorld 1).length
      = 32000 ∧
    ∃ st, fetchLoop defaultConfig fullPagesWorld 3 "" State.init = Outcome.done st ∧
      st.requests = [searchURL defaultConfig "", searchURL defaultConfig "&$skip=16000",
        searchURL defaultConfig "&$skip=16000"] ∧
      searchURL defaultConfig "&$skip=16000" ≠ searchURL defaultConfig "&$skip=32000" := by
  have hp0 : page defaultConfig fullPagesWorld 0 = List.replicate 16000 issueB := rfl
  have hp1 : page defaultConfig fullPagesWorld 1 = List.replicate 16000 issueB := rfl
  have hp2 : page defaultConfig fullPagesWorld 2 = [] := rfl
  have hfirst : FirstShortAt defaultConfig fullPagesWorld 2 := by
    refine ⟨fun j _ => rfl, fun j hj => ?_, ?_⟩
    · have hc : defaultConfig.pageSize = 16000 := rfl
      interval_cases j
      · rw [hp0, List.length_replicate, hc]
      · rw [hp1, List.length_replicate, hc]
    · rw [hp2]
      decide
  refine ⟨hfirst, by rw [hp0, hp1, List.length_replicate], ?_⟩
  obtain ⟨st, h1, h2, _⟩ := fetchLoop_done defaultConfig fullPagesWorld 2 3 hfirst (by decide)
  refine ⟨st, h1, ?_, by decide⟩
  rw [h2]
  decide

/-- C3: when the responses up to number `n` (counted from 0) are successful and response `n`
is the first with fewer than `pageSize` issues, the loop, given fuel for more than `n`
passes, leaves through its `break` having sent exactly `n + 1` search requests, the
requests number `0` to `n`: none follows the short page. For pages of sizes
`[pageSize, pageSize, k]` with `k < pageSize` this is `n = 2`, three requests. -/
theorem fetchLoop_stops_at_first_short_page (cfg : Config) (W : World) (n fuel : Nat)
    (h : FirstShortAt cfg W n) (hfuel : n < fuel) :
    ∃ st, fetchLoop cfg W fuel "" State.init = Outcome.done st ∧
      st.requests.length = n + 1 ∧
      st.requests = (List.range' 0 (n + 1)).map (requestURL cfg) := by
  obtain ⟨st, h1, h2, _⟩ := fetchLoop_done cfg W n fuel h hfuel
  refine ⟨st, h1, ?_, h2⟩
  rw [h2]
  simp

/-- Witness of C3: pages of sizes `[2, 2, 1]` with page size 2 give three requests. -/
theorem fetchLoop_stops_at_first_short_page_witness :
    FirstShortAt smallConfig threePagesWorld 2 ∧
    ∃ st, fetchLoop smallConfig threePagesWorld 3 "" State.init = Outcome.done st ∧
      st.requests.length = 2 + 1 ∧
      st.requests = (List.range' 0 (2 + 1)).map (requestURL smallConfig) :=
  ⟨by decide, fetchLoop_stops_at_first_short_page smallConfig threePagesWorld 2 3
    (by decide) (by decide)⟩

theorem processed_congr (cfg cfg1 : Config) (h : cfg1.projectFilter = cfg.projectFilter)
    (issues : List Issue) : processed cfg1 issues = processed cfg issues := by
  unfold processed skipped
  rw [h]

/-- C4, as amended: the total size that `main` reports is the sum, in `int64` arithmetic
(two's complement wrap-around), of the sizes of all attachments of the issues that the
project filter check does not skip, over all fetched pages; it is their exact sum whenever
that sum fits an `int64`, and with the empty filter of the source no issue is skipped. The
total depends on the concatenation of the pages only: any other run with the same filter,
whatever its page size, that fetches the same issues in the same order reports the same
total. -/
theorem totalSize_sums_processed_pages (cfg : Config) (W : World) (n fuel : Nat)
    (h : FirstShortAt cfg W n) (hfuel : n < fuel) :
    ∃ st, main cfg W fuel = some (st, report W st) ∧
      (report W st).totalSize = wrapInt64 (sizes (classifiedAttachments cfg W n)).sum ∧
      (InInt64 (sizes (classifiedAttachments cfg W n)).sum →
        (report W st).totalSize = (sizes (classifiedAttachments cfg W n)).sum) ∧
      (cfg.projectFilter = defaultProjectFilter →
        classifiedAttachments cfg W n = attachmentsOf (fetched cfg W n)) ∧
      ∀ (cfg1 : Config) (W1 : World) (n1 fuel1 : Nat),
        cfg1.projectFilter = cfg.projectFilter → FirstShortAt cfg1 W1 n1 → n1 < fuel1 →
        fetched cfg1 W1 n1 = fetched cfg W n →
        ∃ st1, main cfg1 W1 fuel1 = some (st1, report W1 st1) ∧
          (report W1 st1).totalSize = (report W st).totalSize := by
  have key : ∀ (c : Config) (V : World) (m f : Nat), FirstShortAt c V m → m < f →
      ∃ st, main c V f = some (st, report V st) ∧
        (report V st).totalSize = wrapInt64 (sizes (classifiedAttachments c V m)).sum := by
    intro c V m f hm hf
    obtain ⟨st, h1, _, h3⟩ := fetchLoop_done c V m f hm hf
    refine ⟨st, by simp [main, h1], ?_⟩
    have e : (report V st).totalSize = st.totalSize := rfl
    unfold classifiedAttachments
    rw [e, h3.1, sumInt64_eq _ (by decide)]
    simp [State.init]
  obtain ⟨st, h1, h2⟩ := key cfg W n fuel h hfuel
  refine ⟨st, h1, h2, fun hin => by rw [h2, wrapInt64_of_inInt64 hin], ?_, ?_⟩
  · intro hfilter
    unfold classifiedAttachments
    rw [processed_of_no_filter cfg hfilter]
  · intro cfg1 W1 n1 fuel1 hc1 hf1 hfu1 hsame
    obtain ⟨st1, g1, g2⟩ := key cfg1 W1 n1 fuel1 hf1 hfu1
    refine ⟨st1, g1, ?_⟩
    rw [g2, h2]
    unfold classifiedAttachments
    rw [hsame, processed_congr cfg cfg1 hc1]

/-- Witness of C4: three pages of sizes `[2, 2, 1]`, three attachments of 100 bytes. -/
theorem totalSize_sums_processed_pages_witness :
    FirstShortAt smallConfig threePagesWorld 2 ∧
    ∃ st, main smallConfig threePagesWorld 3 = some (st, report threePagesWorld st) ∧
      (report threePagesWorld st).totalSize = 300 := by
  refine ⟨by decide, ?_⟩
  obtain ⟨st, h1, h2, _⟩ :=
    totalSize_sums_processed_pages smallConfig threePagesWorld 2 3 (by decide) (by decide)
  exact ⟨st, h1, h2.trans (by decide)⟩

/-- Counterexample to C4 as stated, at two inputs. Two attachments of 9223372036854775807
and 1048576 bytes: the reported total is negative, their sum is not. The filter `ABC,DEF`
and a fetched issue of project `XYZ` with 100 bytes of attachments: the issue is skipped and
the reported total is 0. -/
theorem totalSize_differs_from_sum :
    (∃ st, fetchLoop defaultConfig hugeWorld 1 "" State.init = Outcome.done st ∧
      main defaultConfig hugeWorld 1 = some (st, report hugeWorld st) ∧
      (report hugeWorld st).totalSize = -9223372036853727233 ∧
      (sizes (attachmentsOf (fetched defaultConfig hugeWorld 0))).sum = 9223372036855824383) ∧
    (∃ st, fetchLoop filterConfig worldXYZ 1 "" State.init = Outcome.done st ∧
      main filterConfig worldXYZ 1 = some (st, report worldXYZ st) ∧
      (report worldXYZ st).totalSize = 0 ∧
      (sizes (attachmentsOf (fetched filterConfig worldXYZ 0))).sum = 100) :=
  ⟨⟨_, rfl, rfl, by decide, by decide⟩, ⟨_, rfl, rfl, by decide, by decide⟩⟩

/-! ## Claims about the accounting and the deletions -/

theorem oldFrom_congr (W1 W2 : World) (h : W1.threeyearsago = W2.threeyearsago)
    (k : Nat) (ps : List (Issue × Attachment)) : oldFrom W1 k ps = oldFrom W2 k ps := by
  induction ps generalizing k with
  | nil => rfl
  | cons p ps ih => simp only [oldFrom, h, ih]

theorem pagesFrom_congr (cfg : Config) (W1 W2 : World) (h : W1.search = W2.search)
    (k n : Nat) : pagesFrom cfg W1 k n = pagesFrom cfg W2 k n := by
  induction n generalizing k with
  | zero => simp only [pagesFrom, page, h]
  | succ n ih => simp only [pagesFrom, page, h, ih]

theorem firstShortAt_congr (cfg : Config) (W1 W2 : World) (h : W1.search = W2.search)
    (n : Nat) (h1 : FirstShortAt cfg W1 n) : FirstShortAt cfg W2 n := by
  unfold FirstShortAt page at *
  rw [← h]
  exact h1

/-- C5, as amended: after the loop, the entry of every project name in `projectSizes` is the
sum, in `int64` arithmetic (two's complement wrap-around), of the sizes of the attachments
classified old on the processed issues of that project, which is their exact sum whenever
that sum fits an `int64`; the name has no entry when there is no such attachment; the keys
of the map are pairwise distinct. -/
theorem projectSizes_sums_old_by_project (cfg : Config) (W : World) (n fuel : Nat)
    (h : FirstShortAt cfg W n) (hfuel : n < fuel) :
    ∃ st, fetchLoop cfg W fuel "" State.init = Outcome.done st ∧
      (st.projectSizes.map Prod.fst).Nodup ∧
      (∀ name : String,
        st.projectSizes.lookup name =
          if ofProject name (oldAttachments cfg W n) = [] then none
          else some (wrapInt64 (sizes (ofProject name (oldAttachments cfg W n))).sum)) ∧
      (∀ name : String, ofProject name (oldAttachments cfg W n) ≠ [] →
        InInt64 (sizes (ofProject name (oldAttachments cfg W n))).sum →
        st.projectSizes.lookup name
          = some (sizes (ofProject name (oldAttachments cfg W n))).sum) := by
  obtain ⟨st, h1, _, h3⟩ := fetchLoop_done cfg W n fuel h hfuel
  obtain ⟨_, _, hmap, _, _⟩ := h3
  have hlook : ∀ name : String,
      st.projectSizes.lookup name =
        if ofProject name (oldAttachments cfg W n) = [] then none
        else some (wrapInt64 (sizes (ofProject name (oldAttachments cfg W n))).sum) := by
    intro name
    unfold oldAttachments classifiedAttachments
    rw [hmap, lookup_tally]
    have e0 : State.init.classified = 0 := rfl
    have e1 : State.init.projectSizes = [] := rfl
    rw [e0, e1]
    split_ifs
    · rfl
    · have e2 : mapIndex [] name = 0 := rfl
      rw [e2, sumInt64_eq 0 (by decide)]
      simp
  refine ⟨st, h1, ?_, hlook, ?_⟩
  · rw [hmap]
    exact nodup_keys_tally _ _ List.nodup_nil
  · intro name hne hin
    rw [hlook name, if_neg hne, wrapInt64_of_inInt64 hin]

/-- Witness of C5: two old attachments of sizes 100 and 250 on project `A` give `A` the
total 350. -/
theorem projectSizes_sums_old_by_project_witness :
    FirstShortAt defaultConfig twoOldWorld 0 ∧
    ∃ st, fetchLoop defaultConfig twoOldWorld 1 "" State.init = Outcome.done st ∧
      (st.projectSizes.map Prod.fst).Nodup ∧
      st.projectSizes.lookup "A" = some 350 ∧ st.projectSizes.lookup "B" = none := by
  refine ⟨by decide, ?_⟩
  obtain ⟨st, h1, h2, h3, _⟩ :=
    projectSizes_sums_old_by_project defaultConfig twoOldWorld 0 1 (by decide) (by decide)
  exact ⟨st, h1, h2, (h3 "A").trans (by decide), (h3 "B").trans (by decide)⟩

/-- Counterexample to C5 as stated: two old attachments of 9223372036854775807 and 1048576
bytes on project `A` leave a negative entry for `A`, while the sum of their sizes is
positive. -/
theorem projectSizes_entry_wraps :
    ∃ st, fetchLoop defaultConfig hugeWorld 1 "" State.init = Outcome.done st ∧
      oldAttachments defaultConfig hugeWorld 0
        = [(hugeIssue, hugeAttachment), (hugeIssue, mebibyteAttachment)] ∧
      st.projectSizes.lookup "A" = some (-9223372036853727233) ∧
      (sizes (ofProject "A" (oldAttachments defaultConfig hugeWorld 0))).sum
        = 9223372036855824383 :=
  ⟨_, rfl, by decide, by decide, by decide⟩

/-- The example of the specification: in whatever order `range` yields the entries
`A: 300`, `B: 300`, `C: 100`, the entry `C` is printed last, after `A` and `B`. -/
theorem sortedProjects_example (order : List (String × Int))
    (h : order.Perm [("A", 300), ("B", 300), ("C", 100)]) :
    sortedProjects order
        = [{ Name := "A", Size := 300 }, { Name := "B", Size := 300 }, { Name := "C", Size := 100 }] ∨
      sortedProjects order
        = [{ Name := "B", Size := 300 }, { Name := "A", Size := 300 }, { Name := "C", Size := 100 }] := by
  have hall : ∀ x ∈ [(⟨"A", 300⟩ : ProjectSize), ⟨"B", 300⟩, ⟨"C", 100⟩],
      ∀ y ∈ [(⟨"A", 300⟩ : ProjectSize), ⟨"B", 300⟩, ⟨"C", 100⟩],
      ∀ z ∈ [(⟨"A", 300⟩ : ProjectSize), ⟨"B", 300⟩, ⟨"C", 100⟩],
      [x, y, z].Perm [(⟨"A", 300⟩ : ProjectSize), ⟨"B", 300⟩, ⟨"C", 100⟩] →
      [x, y, z].Pairwise (fun a b => a.Size ≥ b.Size) →
      [x, y, z] = [⟨"A", 300⟩, ⟨"B", 300⟩, ⟨"C", 100⟩] ∨
        [x, y, z] = [⟨"B", 300⟩, ⟨"A", 300⟩, ⟨"C", 100⟩] := by
    decide
  have hperm : (sortedProjects order).Perm
      [(⟨"A", 300⟩ : ProjectSize), ⟨"B", 300⟩, ⟨"C", 100⟩] :=
    (sortSlice_perm _ _).trans (h.map _)
  have hsorted : (sortedProjects order).Pairwise (fun a b => a.Size ≥ b.Size) :=
    sortSlice_descending _
  generalize sortedProjects order = l at hperm hsorted ⊢
  obtain ⟨x, y, z, rfl⟩ := List.length_eq_three.1 hperm.length_eq
  exact hall x (hperm.subset (by simp)) y (hperm.subset (by simp)) z (hperm.subset (by simp))
    hperm hsorted

/-- C6: when `range` yields the entries of the per-project map in some order, the ranked
list that `main` prints is a reordering of the entries of the map in which every entry is
at least as large as each entry printed after it. For the map `A: 300`, `B: 300`,
`C: 100` the entry `C` is printed last and `A` and `B`, in either order, before it. -/
theorem report_projects_ranked (W : World) (st : State)
    (h : (W.rangeOrder st.projectSizes).Perm st.projectSizes) :
    (report W st).projects.Perm
        (st.projectSizes.map (fun e => ({ Name := e.1, Size := e.2 } : ProjectSize))) ∧
      (report W st).projects.Pairwise (fun a b => a.Size ≥ b.Size) ∧
      (st.projectSizes = [("A", 300), ("B", 300), ("C", 100)] →
        (report W st).projects
            = [{ Name := "A", Size := 300 }, { Name := "B", Size := 300 },
                { Name := "C", Size := 100 }] ∨
          (report W st).projects
            = [{ Name := "B", Size := 300 }, { Name := "A", Size := 300 },
                { Name := "C", Size := 100 }]) := by
  refine ⟨?_, ?_, ?_⟩
  · unfold report sortedProjects
    exact (sortSlice_perm _ _).trans (h.map _)
  · unfold report sortedProjects
    exact sortSlice_descending _
  · intro hm
    have h2 : (W.rangeOrder st.projectSizes).Perm [("A", 300), ("B", 300), ("C", 100)] := by
      rw [hm] at h ⊢
      exact h
    exact sortedProjects_example _ h2

/-- Witness of C6: the map `A: 300`, `B: 300`, `C: 100` visited from its last entry to its
first; `B` is printed first, `C` last. -/
theorem report_projects_ranked_witness :
    (reversingWorld.rangeOrder rankedState.projectSizes).Perm rankedState.projectSizes ∧
    (report reversingWorld rankedState).projects.Pairwise (fun a b => a.Size ≥ b.Size) ∧
    (report reversingWorld rankedState).projects
      = [{ Name := "B", Size := 300 }, { Name := "A", Size := 300 },
          { Name := "C", Size := 100 }] :=
  ⟨List.reverse_perm _,
    (report_projects_ranked reversingWorld rankedState (List.reverse_perm _)).2.1,
    by decide⟩

theorem filterMap_eq_map_of_forall {α β : Type} (f : α → Option β) (g : α → β) (l : List α)
    (h : ∀ x ∈ l, f x = some (g x)) : l.filterMap f = l.map g := by
  induction l with
  | nil => rfl
  | cons x xs ih =>
    rw [List.filterMap_cons, h x (List.mem_cons_self _ _), List.map_cons,
      ih (fun y hy => h y (List.mem_cons_of_mem _ hy))]

/-- C7, as amended: whatever the delete calls answer, `main` makes one delete call for each
attachment classified old, in traversal order, and none for any other attachment; the call
hands the string `youTrackURL + "/" + issue.Id + "/attachments/" + attachment.ID` to
`http.NewRequest`. The DELETE requests sent are, in that order, the requests that
`http.NewRequest` builds from these strings, none where it returns an error; each old
attachment gets one log line. No outcome of a delete call stops the run: every attachment
of every processed issue is classified. Where `http.NewRequest` derives from each string
that same string as target, there is exactly one request per old attachment and it targets
exactly that URL. -/
theorem deletes_follow_old_attachments (cfg : Config) (W : World) (n fuel : Nat)
    (h : FirstShortAt cfg W n) (hfuel : n < fuel) :
    ∃ st, fetchLoop cfg W fuel "" State.init = Outcome.done st ∧
      st.deletes =
        (oldAttachments cfg W n).filterMap
          (fun p => W.newRequest (cfg.youTrackURL ++ "/" ++ p.1.Id ++ "/attachments/" ++ p.2.ID)) ∧
      st.log.length = (oldAttachments cfg W n).length ∧
      st.classified = (classifiedAttachments cfg W n).length ∧
      ((∀ p ∈ oldAttachments cfg W n,
          W.newRequest (cfg.youTrackURL ++ "/" ++ p.1.Id ++ "/attachments/" ++ p.2.ID)
            = some (cfg.youTrackURL ++ "/" ++ p.1.Id ++ "/attachments/" ++ p.2.ID)) →
        st.deletes = (oldAttachments cfg W n).map
          (fun p => cfg.youTrackURL ++ "/" ++ p.1.Id ++ "/attachments/" ++ p.2.ID)) := by
  obtain ⟨st, h1, _, h3⟩ := fetchLoop_done cfg W n fuel h hfuel
  obtain ⟨_, _, _, hdel, hcl, hlog⟩ := h3
  have e0 : State.init.classified = 0 := rfl
  have e1 : State.init.deletes = [] := rfl
  have e2 : State.init.log.length = 0 := rfl
  rw [e0, e1, List.nil_append] at hdel
  rw [e0, Nat.zero_add] at hcl
  rw [e0, e2, Nat.zero_add] at hlog
  refine ⟨st, h1, hdel, hlog, hcl, ?_⟩
  intro hall
  rw [hdel]
  exact filterMap_eq_map_of_forall _ _ _ hall

/-- Witness of C7: two old attachments, both deleted, in traversal order. -/
theorem deletes_follow_old_attachments_witness :
    FirstShortAt defaultConfig twoOldWorld 0 ∧
    ∃ st, fetchLoop defaultConfig twoOldWorld 1 "" State.init = Outcome.done st ∧
      st.deletes = ["https://xxx.myjetbrains.com/api/issues/A-1/attachments/8-1",
        "https://xxx.myjetbrains.com/api/issues/A-2/attachments/8-2"] ∧
      st.log.length = 2 ∧ st.classified = 2 := by
  refine ⟨by decide, ?_⟩
  obtain ⟨st, h1, h2, h3, h4, _⟩ :=
    deletes_follow_old_attachments defaultConfig twoOldWorld 0 1 (by decide) (by decide)
  exact ⟨st, h1, h2.trans (by decide), h3.trans (by decide), h4.trans (by decide)⟩

/-- Counterexample to C7 as stated: two old attachments and one DELETE request, which does
not go to the URL of the claim. The identifier `A\n1` holds a line feed, so
`http.NewRequest` returns an error and `deleteAttachment` returns before `client.Do`; the
failure is logged. In the identifier `A#1` the number sign starts a fragment, so the request
built from `.../A#1/attachments/8-1` goes to `.../A`. -/
theorem delete_requests_differ_from_claim :
    oldAttachments defaultConfig strictWorld 0
      = [(lineFeedIssue, sampleAttachment), (numberSignIssue, sampleAttachment)] ∧
    ∃ st, fetchLoop defaultConfig strictWorld 1 "" State.init = Outcome.done st ∧
      st.deletes = ["https://xxx.myjetbrains.com/api/issues/A"] ∧
      st.totalOldsize = 200 ∧
      st.log = [LogLine.errorDeleting (DeleteError.newRequest
          "https://xxx.myjetbrains.com/api/issues/A\n1/attachments/8-1"),
        LogLine.deletedOld "8-1" "A#1"] :=
  ⟨by decide, _, rfl, by decide, by decide, by decide⟩

/-- C8, as amended: two runs that receive the same search responses and read the same
cutoffs, and differ in the outcomes of their delete calls in any way, end with the same
total size, the same total old size and the same per-project map. The total old size is the
sum, in `int64` arithmetic (two's complement wrap-around), of the sizes of all attachments
classified old, whether or not their delete call succeeded; it is their exact sum whenever
that sum fits an `int64`. -/
theorem accounting_ignores_delete_outcomes (cfg : Config) (W1 W2 : World) (n fuel : Nat)
    (hsearch : W1.search = W2.search) (hclock : W1.threeyearsago = W2.threeyearsago)
    (h : FirstShortAt cfg W1 n) (hfuel : n < fuel) :
    ∃ st1 st2, fetchLoop cfg W1 fuel "" State.init = Outcome.done st1 ∧
      fetchLoop cfg W2 fuel "" State.init = Outcome.done st2 ∧
      st1.totalSize = st2.totalSize ∧ st1.totalOldsize = st2.totalOldsize ∧
      st1.projectSizes = st2.projectSizes ∧
      st1.totalOldsize = wrapInt64 (sizes (oldAttachments cfg W1 n)).sum ∧
      (InInt64 (sizes (oldAttachments cfg W1 n)).sum →
        st1.totalOldsize = (sizes (oldAttachments cfg W1 n)).sum) := by
  obtain ⟨st1, a1, _, a3⟩ := fetchLoop_done cfg W1 n fuel h hfuel
  obtain ⟨st2, b1, _, b3⟩ :=
    fetchLoop_done cfg W2 n fuel (firstShortAt_congr cfg W1 W2 hsearch n h) hfuel
  have hf : fetched cfg W2 n = fetched cfg W1 n := by
    unfold fetched
    rw [pagesFrom_congr cfg W1 W2 hsearch]
  rw [hf] at b3
  obtain ⟨a31, a32, a33, _, _⟩ := a3
  obtain ⟨b31, b32, b33, _, _⟩ := b3
  rw [← oldFrom_congr W1 W2 hclock] at b32 b33
  have hsum : st1.totalOldsize = wrapInt64 (sizes (oldAttachments cfg W1 n)).sum := by
    unfold oldAttachments classifiedAttachments
    rw [a32, sumInt64_eq _ (by decide)]
    simp [State.init]
  refine ⟨st1, st2, a1, b1, by rw [a31, b31], by rw [a32, b32], by rw [a33, b33], hsum, ?_⟩
  intro hin
  rw [hsum, wrapInt64_of_inInt64 hin]

/-- Witness of C8: the same tracker once with every DELETE answered 200 and once with every
DELETE answered 404; both runs report 350 bytes of old attachments. -/
theorem accounting_ignores_delete_outcomes_witness :
    twoOldWorld.search = refusingWorld.search ∧
    twoOldWorld.threeyearsago = refusingWorld.threeyearsago ∧
    FirstShortAt defaultConfig twoOldWorld 0 ∧
    ∃ st1 st2, fetchLoop defaultConfig twoOldWorld 1 "" State.init = Outcome.done st1 ∧
      fetchLoop defaultConfig refusingWorld 1 "" State.init = Outcome.done st2 ∧
      st1.totalSize = st2.totalSize ∧ st1.totalOldsize = st2.totalOldsize ∧
      st1.projectSizes = st2.projectSizes ∧ st1.totalOldsize = 350 := by
  refine ⟨rfl, rfl, by decide, ?_⟩
  obtain ⟨st1, st2, h1, h2, h3, h4, h5, h6, _⟩ :=
    accounting_ignores_delete_outcomes defaultConfig twoOldWorld refusingWorld 0 1 rfl rfl
      (by decide) (by decide)
  exact ⟨st1, st2, h1, h2, h3, h4, h5, h6.trans (by decide)⟩

/-- Counterexample to the last clause of C8 as stated: with old attachments of
9223372036854775807 and 1048576 bytes the total old size is negative, while the sum of
the sizes is positive. -/
theorem totalOldsize_wraps :
    ∃ st, fetchLoop defaultConfig hugeWorld 1 "" State.init = Outcome.done st ∧
      st.totalOldsize = -9223372036853727233 ∧
      (sizes (oldAttachments defaultConfig hugeWorld 0)).sum = 9223372036855824383 :=
  ⟨_, rfl, by decide, by decide⟩

/-- C9, the code at the failing input: with the filter `ABC,DEF` the names of the list are
`ABC` and `DEF`; an issue of the project `BC` is not skipped, because `BC` occurs inside the
filter text. Its attachment is counted and a DELETE request is sent for it. -/
theorem filter_accepts_substrings :
    stringsSplit filterConfig.projectFilter.toList ',' = ["ABC".toList, "DEF".toList] ∧
    issueBC.Project.Name.toList ∉ stringsSplit filterConfig.projectFilter.toList ',' ∧
    skipped filterConfig issueBC = false ∧
    ∃ st, fetchLoop filterConfig worldBC 1 "" State.init = Outcome.done st ∧
      st.deletes = ["https://xxx.myjetbrains.com/api/issues/BC-1/attachments/8-1"] ∧
      st.totalSize = 100 ∧ st.totalOldsize = 100 ∧ st.projectSizes = [("BC", 100)] :=
  ⟨by decide, by decide, by decide, _, rfl, by decide, by decide, by decide, by decide⟩

/-- With an empty filter no issue is skipped. -/
theorem not_skipped_of_empty_filter (cfg : Config) (h : cfg.projectFilter = "") (issue : Issue) :
    skipped cfg issue = false := by
  simp [skipped, h]

end YouTrackAttachClean
